import Mathlib

/-!
Verification of the subtitle synthesis and validation pipeline of the
baobao-lyrics repository.  Python strings are modelled as `List Char`,
Python floats as `ℚ` (the numeric idealization of the arithmetic the code
performs), fallible operations as `Option`.  Each definition mirrors one
function of the source (`baobao/transcribe.py`, `baobao/enhance.py`,
`scripts/validate_timing.py`); recursion is structured with explicit fuel
where Python iterates by index, keeping every definition executable.
-/

/-- Python strings are modelled as lists of characters. -/
abbrev Str := List Char

/-- The ASCII whitespace characters recognized by Python's `str.strip()` /
`str.split()` (the source only ever handles ASCII whitespace). -/
def pyWs (c : Char) : Bool :=
  c = ' ' || c = '\t' || c = '\n' || c = '\r' || c = '\x0b' || c = '\x0c'

/-- Remove leading characters satisfying `p` (Python `lstrip`). -/
def lstripBy (p : Char → Bool) (s : Str) : Str := s.dropWhile p

/-- Remove trailing characters satisfying `p` (Python `rstrip`). -/
def rstripBy (p : Char → Bool) (s : Str) : Str := (s.reverse.dropWhile p).reverse

/-- Remove leading and trailing characters satisfying `p` (Python `strip`). -/
def stripBy (p : Char → Bool) (s : Str) : Str := rstripBy p (lstripBy p s)

/-- Python `str.strip()` with no argument: strip whitespace from both ends. -/
def pyStrip (s : Str) : Str := stripBy pyWs s

/-- Python `str.strip(cs)`: strip any of the characters of `cs` from both ends. -/
def stripChars (cs : Str) (s : Str) : Str := stripBy (fun c => cs.contains c) s

/-- Python `str.lower()` (ASCII case folding; the source never feeds it
characters where Python's Unicode lowering differs). -/
def lowerStr (s : Str) : Str := s.map Char.toLower

/-- Split a string at every character satisfying `p`, keeping empty pieces
(the primitive underlying Python `str.split(sep)` for one-character `sep`). -/
def splitBy (p : Char → Bool) : Str → List Str
  | [] => [[]]
  | c :: cs =>
    if p c then [] :: splitBy p cs
    else
      match splitBy p cs with
      | [] => [[c]]
      | y :: ys => (c :: y) :: ys

/-- Python `str.split(sep)` for a single-character separator. -/
def splitCh (sep : Char) (s : Str) : List Str := splitBy (fun c => c = sep) s

/-- Python `str.split()` with no argument: split on whitespace runs,
discarding empty pieces. -/
def wsplit (s : Str) : List Str := (splitBy pyWs s).filter (fun w => w ≠ [])

/-- Fuel-indexed worker for `splitSeq`; the fuel dominates the length of the
string, so the `0` row is never reached on a non-empty string. -/
def splitSeqF (sep : Str) : Nat → Str → List Str
  | _, [] => [[]]
  | 0, s => [s]
  | fuel + 1, c :: cs =>
    if sep ≠ [] ∧ sep.isPrefixOf (c :: cs) then
      [] :: splitSeqF sep fuel ((c :: cs).drop sep.length)
    else
      match splitSeqF sep fuel cs with
      | [] => [[c]]
      | y :: ys => (c :: y) :: ys

/-- Python `str.split(sep)` for a multi-character separator (leftmost-first,
as Python's `split` scans). -/
def splitSeq (sep : Str) (s : Str) : List Str := splitSeqF sep s.length s

/-- The character for a decimal digit `d < 10`. -/
def digitChar (d : Nat) : Char := Char.ofNat (48 + d)

/-- Fuel-indexed worker producing the decimal digits of `n`. -/
def natDigitsAux : Nat → Nat → Str
  | 0, _ => []
  | fuel + 1, n =>
    if n < 10 then [digitChar n]
    else natDigitsAux fuel (n / 10) ++ [digitChar (n % 10)]

/-- The decimal representation of a natural number, most significant first
(what Python's `str`/format emits for a non-negative integer). -/
def natDigits (n : Nat) : Str := natDigitsAux (n + 1) n

/-- Numeric value of a decimal digit character. -/
def digitVal (c : Char) : Nat := c.toNat - 48

/-- Whether a character is a decimal digit. -/
def isDigitCh (c : Char) : Bool := 48 ≤ c.toNat && c.toNat ≤ 57

/-- Value of a string of decimal digits (most significant first). -/
def digitsVal (s : Str) : Nat := s.foldl (fun a c => a * 10 + digitVal c) 0

/-- Value of an unsigned all-digit numeral, or `none` if malformed. -/
def digitsNum? (r : Str) : Option ℕ :=
  if r ≠ [] ∧ r.all isDigitCh then some (digitsVal r) else none

/-- Python `int(str)` restricted to the literals the pipeline can meet:
optional surrounding whitespace, optional sign, decimal digits. -/
def pyInt? (s : Str) : Option ℤ :=
  match pyStrip s with
  | [] => none
  | c :: r =>
    if c = '-' then (digitsNum? r).map (fun (v : ℕ) => -(v : ℤ))
    else if c = '+' then (digitsNum? r).map (fun (v : ℕ) => (v : ℤ))
    else (digitsNum? (c :: r)).map (fun (v : ℕ) => (v : ℤ))

/-- Shared body of `pyFloat?` after the sign has been peeled off. -/
def pyFloatCore (sgn : ℚ) (u : Str) : Option ℚ :=
  match splitCh '.' u with
  | [ip] => (digitsNum? ip).map (fun (v : ℕ) => sgn * (v : ℚ))
  | [ip, fp] =>
    if (ip ≠ [] ∨ fp ≠ []) ∧ ip.all isDigitCh ∧ fp.all isDigitCh then
      some (sgn * ((digitsVal ip : ℚ) + (digitsVal fp : ℚ) / (10 : ℚ) ^ fp.length))
    else none
  | _ => none

/-- Python `float(str)` restricted to plain decimal literals (optional
surrounding whitespace, optional sign, digits with at most one point) —
the only shape the timestamp fields can take. -/
def pyFloat? (s : Str) : Option ℚ :=
  match pyStrip s with
  | [] => none
  | c :: r =>
    if c = '-' then pyFloatCore (-1) r
    else if c = '+' then pyFloatCore 1 r
    else pyFloatCore 1 (c :: r)

/-- Left-pad a digit string with zeros to width `k` (Python `{n:0kd}` for a
non-negative value). -/
def padZeros (k : Nat) (s : Str) : Str := List.replicate (k - s.length) '0' ++ s

/-- Python `format(n, "0kd")` on an integer: zero-padded to total width `k`,
the sign counting toward the width. -/
def fmtInt (k : Nat) (n : ℤ) : Str :=
  if n < 0 then '-' :: padZeros (k - 1) (natDigits n.natAbs)
  else padZeros k (natDigits n.toNat)

/-- After the first non-`>` character of a candidate tag, scan to the
closing `>`; returns the remainder of the string after the tag. -/
def tagEndAux : Str → Option Str
  | [] => none
  | c :: r => if c = '>' then some r else tagEndAux r

/-- Given the text following a `<`, recognize `[^>]+>` (at least one
non-`>` character, then `>`), as in the regex `<[^>]+>` of the source. -/
def tagEnd : Str → Option Str
  | [] => none
  | c :: r => if c = '>' then none else tagEndAux r

/-- Fuel-indexed worker for `stripTags`; fuel dominates the string length. -/
def stripTagsF : Nat → Str → Str
  | _, [] => []
  | 0, s => s
  | fuel + 1, c :: rest =>
    if c = '<' then
      match tagEnd rest with
      | some r => stripTagsF fuel r
      | none => c :: stripTagsF fuel rest
    else c :: stripTagsF fuel rest

/-- `re.sub(r'<[^>]+>', '', s)`: delete every maximal `<...>` tag. -/
def stripTags (s : Str) : Str := stripTagsF s.length s

/-- Worker for `replaceFirst` with a non-empty pattern. -/
def replaceFirstAux (old new : Str) : Str → Str
  | [] => []
  | c :: cs =>
    if old.isPrefixOf (c :: cs) then new ++ (c :: cs).drop old.length
    else c :: replaceFirstAux old new cs

/-- Python `s.replace(old, new, 1)`: replace the first literal occurrence
of `old` (an empty pattern inserts at the front, as in Python). -/
def replaceFirst (s old new : Str) : Str :=
  if old = [] then new ++ s else replaceFirstAux old new s

/-- Python `a % b` on floats for positive `b`: the remainder with the sign
of the divisor, i.e. `a - b * ⌊a / b⌋`. -/
def pyMod (a b : ℚ) : ℚ := a - b * ⌊a / b⌋

/-- `Transcriber._format_srt_time` (transcribe.py:187-193): format seconds
as `HH:MM:SS,mmm`.  All four fields truncate. -/
def format_srt_time (seconds : ℚ) : Str :=
  let hours : ℤ := ⌊seconds / 3600⌋
  let minutes : ℤ := ⌊pyMod seconds 3600 / 60⌋
  let secs : ℤ := ⌊pyMod seconds 60⌋
  let millis : ℤ := ⌊pyMod seconds 1 * 1000⌋
  fmtInt 2 hours ++ ':' :: (fmtInt 2 minutes ++ ':' :: (fmtInt 2 secs ++ ',' :: fmtInt 3 millis))

/-- The comma-to-dot substitution `time_str.replace(",", ".")`. -/
def commaToDot (s : Str) : Str := s.map (fun c => if c = ',' then '.' else c)

/-- `parse_srt_time` (validate_timing.py:49-56): convert `HH:MM:SS,mmm`
(or with a dot) to seconds; `none` models the exception on malformed
input (too few `:`-fields, or unparsable numerals). -/
def parse_srt_time (time_str : Str) : Option ℚ :=
  let t := commaToDot (pyStrip time_str)
  match splitCh ':' t with
  | p0 :: p1 :: p2 :: _ =>
    match pyInt? p0, pyInt? p1, pyFloat? p2 with
    | some hours, some minutes, some seconds =>
      some ((hours : ℚ) * 3600 + (minutes : ℚ) * 60 + seconds)
    | _, _, _ => none
  | _ => none

/-! ### Basic facts about digits and numerals -/

/-- One word-level timing dict `{"start": w.start, "end": w.end, "word": w.word}`
(transcribe.py:104-106).  The source field `end` is called `stop` here
(`end` is reserved in Lean). -/
structure WordInfo where
  start : ℚ
  stop : ℚ
  word : Str
deriving DecidableEq

/-- `LyricSegment` (transcribe.py:33-40); field `end` is called `stop` here. -/
structure LyricSegment where
  start : ℚ
  stop : ℚ
  text : Str
  words : Option (List WordInfo)
deriving DecidableEq

/-- One SRT block as emitted by the writers: index, time range and text.
The writers emit `f"{i}\n{start} --> {end}\n{text}\n\n"` with the times
already formatted; the block is the pre-rendering content of that write. -/
structure SrtBlock where
  index : ℕ
  start : ℚ
  stop : ℚ
  text : Str
deriving DecidableEq

/-- Render one block exactly as the `f.write` call formats it. -/
def renderBlock (b : SrtBlock) : Str :=
  natDigits b.index ++ '\n' ::
    (format_srt_time b.start ++ ' ' :: '-' :: '-' :: '>' :: ' ' ::
      (format_srt_time b.stop ++ '\n' :: (b.text ++ ['\n', '\n'])))

/-- The full file content written by a writer: concatenation of its blocks. -/
def renderSrt (blocks : List SrtBlock) : Str := (blocks.map renderBlock).flatten

/-- `Transcriber._write_srt_simple` (transcribe.py:148-153) as the list of
blocks it writes: `enumerate(segments, 1)` with the segment text verbatim. -/
def write_srt_simple_aux : ℕ → List LyricSegment → List SrtBlock
  | _, [] => []
  | i, seg :: rest => ⟨i, seg.start, seg.stop, seg.text⟩ :: write_srt_simple_aux (i + 1) rest

/-- The blocks of `_write_srt_simple` (the counter starts at 1). -/
def write_srt_simple (segments : List LyricSegment) : List SrtBlock :=
  write_srt_simple_aux 1 segments

/-- The highlight markup `<font color="#00ff00">…</font>` wrapped around a word. -/
def highlightTag (w : Str) : Str :=
  "<font color=\"#00ff00\">".data ++ w ++ "</font>".data

/-- Inner loop of `_write_srt_word_highlight` (transcribe.py:169-185): one
block per word whose stripped surface is non-empty, the current word's first
occurrence highlighted in the full segment text; returns the blocks together
with the counter value after the loop. -/
def wordEntries (fullText : Str) : ℕ → List WordInfo → List SrtBlock × ℕ
  | idx, [] => ([], idx)
  | idx, w :: rest =>
    let word := pyStrip w.word
    if word = [] then wordEntries fullText idx rest
    else
      let highlighted := replaceFirst fullText word (highlightTag word)
      let p := wordEntries fullText (idx + 1) rest
      (⟨idx, w.start, w.stop, highlighted⟩ :: p.1, p.2)

/-- `Transcriber._write_srt_word_highlight` (transcribe.py:155-185) as the
list of blocks it writes; `if not seg.words` (None or empty) falls back to a
single simple block. -/
def write_srt_word_highlight_aux : ℕ → List LyricSegment → List SrtBlock
  | _, [] => []
  | idx, seg :: rest =>
    match seg.words with
    | none => ⟨idx, seg.start, seg.stop, seg.text⟩ :: write_srt_word_highlight_aux (idx + 1) rest
    | some [] => ⟨idx, seg.start, seg.stop, seg.text⟩ :: write_srt_word_highlight_aux (idx + 1) rest
    | some (w :: ws) =>
      let p := wordEntries seg.text idx (w :: ws)
      p.1 ++ write_srt_word_highlight_aux p.2 rest

/-- The blocks of `_write_srt_word_highlight` (the counter starts at 1). -/
def write_srt_word_highlight (segments : List LyricSegment) : List SrtBlock :=
  write_srt_word_highlight_aux 1 segments

/-- The block built for one word of a segment in word-highlight mode. -/
def highlightBlock (fullText : Str) (i : ℕ) (w : WordInfo) : SrtBlock :=
  ⟨i, w.start, w.stop,
    replaceFirst fullText (pyStrip w.word) (highlightTag (pyStrip w.word))⟩

/-- `pat` occurs in `s` starting at position `i`. -/
def occursAt (pat s : Str) (i : ℕ) : Prop := pat.isPrefixOf (s.drop i) = true

instance (pat s : Str) (i : ℕ) : Decidable (occursAt pat s i) :=
  inferInstanceAs (Decidable (_ = true))

/-- A segment whose single token is whitespace-only (C2 counterexample input). -/
def wsTokenSegment : LyricSegment :=
  { start := 0, stop := 1, text := "hi".data,
    words := some [{ start := 0, stop := 1, word := " ".data }] }

/-- A segment with one ordinary token (C2 witness input). -/
def oneTokenSegment : LyricSegment :=
  { start := 0, stop := 1, text := "hi".data,
    words := some [{ start := 0, stop := 1, word := "hi".data }] }

/-- Segment text `"go go go"` with a single token `"go"` timed at the second
occurrence (C3's concrete input). -/
def goSegment : LyricSegment :=
  { start := 0, stop := 3, text := "go go go".data,
    words := some [{ start := 1, stop := 2, word := "go".data }] }

/-! ### C7: simple mode -/

/-- The tokens the word-highlight writer keeps: those whose stripped
surface form is non-empty (`if not word: continue`). -/
def keepWord (w : WordInfo) : Bool := !(pyStrip w.word).isEmpty

/-- `SRTEntry` (validate_timing.py:31-46); the source field `end` is called
`stop` here.  `text` is the tag-stripped text, `raw_text` keeps markup. -/
structure SRTEntry where
  index : ℤ
  start : ℚ
  stop : ℚ
  text : Str
  raw_text : Str
deriving DecidableEq

/-- `SRTEntry.duration`. -/
def SRTEntry.duration (e : SRTEntry) : ℚ := e.stop - e.start

/-- `SRTEntry.overlaps_with` (validate_timing.py:44-46). -/
def SRTEntry.overlaps_with (e other : SRTEntry) : Bool :=
  e.start < other.stop && other.start < e.stop

/-- The kinds of issues and warnings the validator reports (`"type"` field). -/
inductive IssueKind where
  | OVERLAPPING_ENTRIES
  | NON_SEQUENTIAL
  | VERY_SHORT_DURATION
  | VERY_LONG_DURATION
  | MISSING_WORDS
  | EXTRA_WORDS
  | LARGE_GAPS
deriving DecidableEq

/-- One issue/warning dict: its `"type"`, `"count"` and, when present, the
`"examples"` / `"words"` payloads.  The display-only `"message"` string is
not modelled. -/
structure Issue where
  kind : IssueKind
  count : ℕ
  examples : List (SRTEntry × SRTEntry) := []
  words : List Str := []
deriving DecidableEq

/-- The dict returned by `validate_format` (validate_timing.py:215-221);
the redundant `"entries"` echo is kept. -/
structure Report where
  num_entries : ℕ
  total_duration : ℚ
  issues : List Issue
  warnings : List Issue
  entries : List SRTEntry
deriving DecidableEq

/-- Check 1's nested loops (validate_timing.py:121-126): every ordered pair
`(entries[i], entries[j])` with `i < j` whose members overlap, in scan order. -/
def overlapPairs : List SRTEntry → List (SRTEntry × SRTEntry)
  | [] => []
  | e :: rest =>
    (rest.filter (fun o => e.overlaps_with o)).map (fun o => (e, o)) ++ overlapPairs rest

/-- Check 2 (validate_timing.py:137-142): adjacent pairs with
`current.end > next.start`. -/
def nonSequentialPairs : List SRTEntry → List (SRTEntry × SRTEntry)
  | e1 :: e2 :: rest =>
    (if e1.stop > e2.start then [(e1, e2)] else []) ++ nonSequentialPairs (e2 :: rest)
  | _ => []

/-- Check 5 (validate_timing.py:200-206): adjacent pairs whose gap
`next.start - current.end` exceeds two seconds. -/
def largeGapPairs : List SRTEntry → List (SRTEntry × SRTEntry)
  | e1 :: e2 :: rest =>
    (if e2.start - e1.stop > 2 then [(e1, e2)] else []) ++ largeGapPairs (e2 :: rest)
  | _ => []

/-- The punctuation set stripped by check 4: `.strip(".,!?;:")`. -/
def punctSet : Str := ".,!?;:".data

/-- Check 4's token collection (validate_timing.py:172-175): lower-case each
entry's plain text, whitespace-split it, strip the punctuation set from both
ends of each token, and keep the non-empty results, in order across entries. -/
def transcribedWords (entries : List SRTEntry) : List Str :=
  (entries.map (fun e =>
    ((wsplit (lowerStr e.text)).map (stripChars punctSet)).filter
      (fun w => w ≠ []))).flatten

/-- `missing_words = set(expected_words) - set(transcribed_words)`:
modelled as the duplicate-free list of expected words not found (the
arbitrary iteration order of a Python `set` is not modelled; only the
membership and the count are used downstream). -/
def missingWords (expected : List Str) (entries : List SRTEntry) : List Str :=
  expected.dedup.filter (fun w => w ∉ transcribedWords entries)

/-- The `extra_words` loop (validate_timing.py:178-181): every transcribed
token not in the expected list, duplicates and order preserved. -/
def extraWords (expected : List Str) (entries : List SRTEntry) : List Str :=
  (transcribedWords entries).filter (fun w => w ∉ expected)

/-- `validate_format` (validate_timing.py:110-221).  `expected_words = none`
models passing `None`; a `some []` behaves like `None` because the source
guards with `if expected_words:`.  Issues and warnings are appended in the
source's order. -/
def validate_format (entries : List SRTEntry) (expected_words : Option (List Str)) :
    Report :=
  let overlaps := overlapPairs entries
  let issues1 : List Issue :=
    if overlaps ≠ [] then
      [{ kind := .OVERLAPPING_ENTRIES, count := overlaps.length,
         examples := overlaps.take 3 }]
    else []
  let non_seq := nonSequentialPairs entries
  let issues2 : List Issue :=
    if non_seq ≠ [] then
      [{ kind := .NON_SEQUENTIAL, count := non_seq.length, examples := non_seq.take 3 }]
    else []
  let too_short := entries.filter (fun e => e.duration < 0.1)
  let too_long := entries.filter (fun e => e.duration > 10.0)
  let warns1 : List Issue :=
    if too_short ≠ [] then
      [{ kind := .VERY_SHORT_DURATION, count := too_short.length }]
    else []
  let warns2 : List Issue :=
    if too_long ≠ [] then
      [{ kind := .VERY_LONG_DURATION, count := too_long.length }]
    else []
  let wordChecks : List Issue × List Issue :=
    match expected_words with
    | none => ([], [])
    | some ew =>
      if ew = [] then ([], [])
      else
        let missing := missingWords ew entries
        let extra := extraWords ew entries
        (if missing ≠ [] then
           [{ kind := .MISSING_WORDS, count := missing.length, words := missing }]
         else [],
         if extra ≠ [] then
           [{ kind := .EXTRA_WORDS, count := extra.length, words := extra }]
         else [])
  let gaps := largeGapPairs entries
  let warns4 : List Issue :=
    if gaps ≠ [] then [{ kind := .LARGE_GAPS, count := gaps.length }] else []
  { num_entries := entries.length,
    total_duration := (entries.getLast?.map SRTEntry.stop).getD 0,
    issues := issues1 ++ issues2 ++ wordChecks.1,
    warnings := warns1 ++ warns2 ++ wordChecks.2 ++ warns4,
    entries := entries }

/-- First entry of the C5 concrete input: index 1, 0.0–2.0 seconds. -/
def overlapEntryA : SRTEntry :=
  { index := 1, start := 0, stop := 2, text := "a".data, raw_text := "a".data }

/-- Second entry of the C5 concrete input: index 2, 1.0–3.0 seconds. -/
def overlapEntryB : SRTEntry :=
  { index := 2, start := 1, stop := 3, text := "b".data, raw_text := "b".data }

/-- Modelled from the claim's words (not from the code): collect tokens with
only TRAILING punctuation stripped. -/
def claimTrailingWords (entries : List SRTEntry) : List Str :=
  (entries.map (fun e =>
    ((wsplit (lowerStr e.text)).map (rstripBy (fun c => punctSet.contains c))).filter
      (fun w => w ≠ []))).flatten

/-- The C6 counterexample entry: plain text `",,hi"`. -/
def punctEntry : SRTEntry :=
  { index := 1, start := 0, stop := 2, text := ",,hi".data, raw_text := ",,hi".data }

/-- `OutputFormat` (enhance.py:24-29). -/
inductive OutputFormat where
  | FULL
  | EMOJI
  | LEARN
deriving DecidableEq

/-- One entry of a `word_details` per-character breakdown. -/
structure WordDetail where
  char : Str
  pinyin : Str
  english : Str
deriving DecidableEq

/-- `PhraseInterpretation` (enhance.py:41-48): the structured output of the
full/emoji LLM call. -/
structure PhraseInterpretation where
  pinyin : Str
  english : Str
  word_details : List WordDetail
deriving DecidableEq

/-- `LearningLyricLine` (enhance.py:51-64): the structured output of the
learn-mode LLM call. -/
structure LearningLyricLine where
  pinyin_spaced : Str
  literal_gloss : Str
  natural_english : Str
  sing_along_tip : Str
  word_details : List WordDetail
deriving DecidableEq

/-- The result dict of `interpret_phrase`: the keys the merge layer reads.
The learn-only keys are `Option` because the full/emoji dicts lack them. -/
structure Interp where
  pinyin : Str
  english : Str
  word_details : List WordDetail
  pinyin_spaced : Option Str := none
  literal_gloss : Option Str := none
  sing_along_tip : Option Str := none
deriving DecidableEq

/-- The instance cache `self._cache`, keyed by
`f"{output_format}:{clean_text}"` (modelled as the pair). -/
abbrev Cache := List ((OutputFormat × Str) × Interp)

/-- Dictionary lookup in the cache (latest insertion shadows). -/
def cacheLookup (cache : Cache) (key : OutputFormat × Str) : Option Interp :=
  (cache.find? (fun kv => kv.1 = key)).map Prod.snd

/-- Dictionary assignment `self._cache[key] = v`. -/
def cacheInsert (cache : Cache) (key : OutputFormat × Str) (v : Interp) : Cache :=
  (key, v) :: cache

/-- The degraded dict built when the full/emoji LLM call fails
(enhance.py:181-189): romanization is the cleaned text unchanged,
translation is `"?"`, and the breakdown has one `"?"/"?"` entry per
non-whitespace character. -/
def fallbackInterp (clean_text : Str) : Interp :=
  { pinyin := clean_text, english := "?".data,
    word_details := (clean_text.filter (fun c => pyStrip [c] ≠ [])).map
      (fun c => { char := [c], pinyin := "?".data, english := "?".data }) }

/-- The degraded dict of the learn path (enhance.py:245-256). -/
def fallbackLearn (clean_text : Str) : Interp :=
  { pinyin := clean_text, english := "?".data,
    word_details := (clean_text.filter (fun c => pyStrip [c] ≠ [])).map
      (fun c => { char := [c], pinyin := "?".data, english := "?".data }),
    pinyin_spaced := some clean_text, literal_gloss := some "?".data,
    sing_along_tip := some [] }

/-- The dict built from a successful full/emoji call (enhance.py:167-174). -/
def interpOfPhrase (r : PhraseInterpretation) : Interp :=
  { pinyin := r.pinyin, english := r.english, word_details := r.word_details }

/-- The dict built from a successful learn call (enhance.py:228-238). -/
def interpOfLearning (r : LearningLyricLine) : Interp :=
  { pinyin := r.pinyin_spaced, english := r.natural_english,
    word_details := r.word_details, pinyin_spaced := some r.pinyin_spaced,
    literal_gloss := some r.literal_gloss, sing_along_tip := some r.sing_along_tip }

/-- `ChineseEnhancer._interpret_for_learning` (enhance.py:193-258), with the
external call abstracted as `clientLearn`. -/
def interpret_for_learning (clientLearn : Str → Option LearningLyricLine)
    (cache : Cache) (fmt : OutputFormat) (clean_text : Str) : Interp × Cache :=
  match clientLearn clean_text with
  | some r => (interpOfLearning r, cacheInsert cache (fmt, clean_text) (interpOfLearning r))
  | none => (fallbackLearn clean_text, cacheInsert cache (fmt, clean_text) (fallbackLearn clean_text))

/-- `ChineseEnhancer.interpret_phrase` (enhance.py:116-191).  The two
external LLM calls are injected as functions of the cleaned text (the prompt
is a fixed function of it), the instance cache is passed and returned
explicitly, and a failed call is `none`. -/
def interpret_phrase (fmt : OutputFormat)
    (clientFull : Str → Option PhraseInterpretation)
    (clientLearn : Str → Option LearningLyricLine)
    (cache : Cache) (chinese_text : Str) : Interp × Cache :=
  let clean_text := pyStrip (stripTags chinese_text)
  if clean_text = [] then
    ({ pinyin := [], english := [], word_details := [] }, cache)
  else
    match cacheLookup cache (fmt, clean_text) with
    | some v => (v, cache)
    | none =>
      if fmt = .LEARN then interpret_for_learning clientLearn cache fmt clean_text
      else
        match clientFull clean_text with
        | some r => (interpOfPhrase r, cacheInsert cache (fmt, clean_text) (interpOfPhrase r))
        | none => (fallbackInterp clean_text, cacheInsert cache (fmt, clean_text) (fallbackInterp clean_text))

/-- Try to match the highlight regex `<font[^>]*>([^<]+)</font>` at the
start of `s`, returning the captured group. -/
def fontMatchHere (s : Str) : Option Str :=
  if ("<font".data).isPrefixOf s then
    match tagEndAux (s.drop 5) with
    | none => none
    | some afterOpen =>
      let captured := afterOpen.takeWhile (fun c => c ≠ '<')
      if captured ≠ [] ∧ ("</font>".data).isPrefixOf (afterOpen.drop captured.length) then
        some captured
      else none
  else none

/-- Fuel-indexed scan of `re.search` over the string (leftmost match). -/
def findFontHighlightF : Nat → Str → Option Str
  | _, [] => none
  | 0, _ => none
  | fuel + 1, c :: r =>
    match fontMatchHere (c :: r) with
    | some cap => some cap
    | none => findFontHighlightF fuel r

/-- `re.search(r'<font[^>]*>([^<]+)</font>', chinese)` returning group 1
(enhance.py:267-268). -/
def findFontHighlight (s : Str) : Option Str := findFontHighlightF s.length s

/-- The dict returned by `format_subtitle_line`. -/
structure LineResult where
  chinese : Str
  pinyin : Str
  pinyin_plain : Str
  english : Str
  word_details : List WordDetail
deriving DecidableEq

/-- `ChineseEnhancer.format_subtitle_line` (enhance.py:260-296). -/
def format_subtitle_line (fmt : OutputFormat)
    (clientFull : Str → Option PhraseInterpretation)
    (clientLearn : Str → Option LearningLyricLine)
    (cache : Cache) (chinese : Str) : LineResult × Cache :=
  let clean_text := pyStrip (stripTags chinese)
  let highlighted_char := findFontHighlight chinese
  let ic := interpret_phrase fmt clientFull clientLearn cache clean_text
  let interp := ic.1
  let pinyin_highlighted :=
    match highlighted_char with
    | some hc =>
      if hc ≠ [] ∧ interp.word_details ≠ [] then
        List.intercalate [' '] (interp.word_details.map (fun detail =>
          if detail.char = hc then highlightTag detail.pinyin else detail.pinyin))
      else interp.pinyin
    | none => interp.pinyin
  ({ chinese := chinese, pinyin := pinyin_highlighted, pinyin_plain := interp.pinyin,
     english := interp.english, word_details := interp.word_details }, ic.2)

/-- One parsed SRT entry as consumed by the merge loop of `enhance_srt`
(index, timestamp line, text). -/
structure EnhEntryIn where
  index : ℤ
  timestamp : Str
  text : Str
deriving DecidableEq

/-- One enhanced entry: the original index and timestamp with the new
multi-line text (kept as the list of lines joined by `"\n"` on write). -/
structure EnhEntryOut where
  index : ℤ
  timestamp : Str
  lines : List Str
deriving DecidableEq

/-- The per-entry merge step of `enhance_srt` (enhance.py:357-382): build
the output line set for one parsed entry, threading the cache. -/
def buildEnhancedEntry (fmt : OutputFormat)
    (clientFull : Str → Option PhraseInterpretation)
    (clientLearn : Str → Option LearningLyricLine)
    (cache : Cache) (entry : EnhEntryIn) : EnhEntryOut × Cache :=
  let rc := format_subtitle_line fmt clientFull clientLearn cache entry.text
  let result := rc.1
  let ic := interpret_phrase fmt clientFull clientLearn rc.2 (pyStrip (stripTags entry.text))
  let interp := ic.1
  let lines :=
    if fmt = .LEARN then
      [result.pinyin, result.chinese,
       if (interp.sing_along_tip.getD []) ≠ [] then interp.sing_along_tip.getD []
       else '(' :: ((interp.literal_gloss.getD interp.english) ++ [')'])]
    else
      [result.chinese, result.pinyin, '(' :: (result.english ++ [')'])]
  ({ index := entry.index, timestamp := entry.timestamp, lines := lines }, ic.2)

/-! ### C8 / C10: enhancement behaviour -/

/-- The arrow separator `" --> "` of the timestamp line. -/
def arrowSep : Str := " --> ".data

/-- The blank-line separator `"\n\n"` between blocks. -/
def nlnl : Str := ['\n', '\n']

/-- One iteration of the tolerant parse loop of `parse_srt`
(validate_timing.py:72-105): `none` models both the blank-block `continue`
and the `except` skip; the destructuring `start_str, end_str = …` demands
exactly two pieces. -/
def parseBlock (block : Str) : Option SRTEntry :=
  if pyStrip block = [] then none
  else
    match splitCh '\n' (pyStrip block) with
    | l0 :: l1 :: l2 :: rest =>
      (match pyInt? l0 with
       | none => none
       | some index =>
         match splitSeq arrowSep l1 with
         | [a, b] =>
           (match parse_srt_time a, parse_srt_time b with
            | some ts, some te =>
              some { index := index, start := ts, stop := te,
                     text := pyStrip (stripTags (List.intercalate [' '] (l2 :: rest))),
                     raw_text := List.intercalate [' '] (l2 :: rest) }
            | _, _ => none)
         | _ => none)
    | _ => none

/-- `parse_srt` (validate_timing.py:59-107) on in-memory content. -/
def parse_srt (content : Str) : List SRTEntry :=
  (splitSeq nlnl (pyStrip content)).filterMap parseBlock

/-- No two adjacent newline characters occur in the string. -/
def noNlNl : Str → Bool
  | [] => true
  | [_] => true
  | a :: b :: t => !(a = '\n' && b = '\n') && noNlNl (b :: t)

/-- The body of one rendered block, without the trailing blank-line pair. -/
def blockCore (b : SrtBlock) : Str :=
  natDigits b.index ++ '\n' ::
    ((format_srt_time b.start ++ arrowSep ++ format_srt_time b.stop) ++ '\n' :: b.text)

/-- A rational number of seconds that lies exactly on a millisecond. -/
def msAligned (q : ℚ) : Prop := 0 ≤ q ∧ ∃ n : ℤ, q = (n : ℚ) / 1000

/-- An SRT block whose serialization survives `parse_srt` unchanged:
single-line, tag-free text with non-whitespace ends, millisecond-aligned
non-negative times. -/
def goodBlock (b : SrtBlock) : Prop :=
  b.text ≠ [] ∧ (∀ c ∈ b.text, c ≠ '\n') ∧ (∀ c ∈ b.text, c ≠ '<') ∧
  (∀ c, b.text.head? = some c → pyWs c = false) ∧
  (∀ c, b.text.getLast? = some c → pyWs c = false) ∧
  msAligned b.start ∧ msAligned b.stop

/-- Block-format safety of a segment, as the round trip requires it. -/
def blockSafe (seg : LyricSegment) : Prop :=
  seg.text ≠ [] ∧ (∀ c ∈ seg.text, c ≠ '\n') ∧ (∀ c ∈ seg.text, c ≠ '<') ∧
  (∀ c, seg.text.head? = some c → pyWs c = false) ∧
  (∀ c, seg.text.getLast? = some c → pyWs c = false) ∧
  msAligned seg.start ∧ msAligned seg.stop

/-- The parsed entry a block round-trips to: same index, times and text
(the raw and plain text coincide as the writer emits no markup here). -/
def entryOfBlock (b : SrtBlock) : SRTEntry :=
  { index := (b.index : ℤ), start := b.start, stop := b.stop,
    text := b.text, raw_text := b.text }

/-- A segment whose text holds an embedded newline but no blank line. -/
def nlTextSegment : LyricSegment := ⟨1, 2, ['a', '\n', 'b'], none⟩

/-- A one-word segment with millisecond-aligned times. -/
def rtSeg : LyricSegment := ⟨0, 0, ['h', 'i'], none⟩

theorem isDigitCh_digitChar {d : ℕ} (h : d < 10) : isDigitCh (digitChar d) = true := by
  interval_cases d <;> decide

theorem digitVal_digitChar {d : ℕ} (h : d < 10) : digitVal (digitChar d) = d := by
  interval_cases d <;> decide

theorem digitChar_ne {d : ℕ} (c : Char) (h : d < 10) (hc : isDigitCh c = false) :
    digitChar d ≠ c := by
  intro he
  rw [← he, isDigitCh_digitChar h] at hc
  cases hc

theorem pyWs_of_digit {c : Char} (h : isDigitCh c = true) : pyWs c = false := by
  simp only [isDigitCh, Bool.and_eq_true, decide_eq_true_eq] at h
  simp only [pyWs, Bool.or_eq_false_iff, decide_eq_false_iff_not]
  refine ⟨⟨⟨⟨⟨?_, ?_⟩, ?_⟩, ?_⟩, ?_⟩, ?_⟩ <;>
    (intro he; subst he; revert h; decide)

theorem valFrom_append (a : ℕ) (l m : Str) :
    (l ++ m).foldl (fun a c => a * 10 + digitVal c) a =
      m.foldl (fun a c => a * 10 + digitVal c) (l.foldl (fun a c => a * 10 + digitVal c) a) := by
  exact List.foldl_append _ _ _ _

theorem natDigitsAux_val {fuel n : ℕ} (h : n < fuel) :
    digitsVal (natDigitsAux fuel n) = n := by
  induction fuel generalizing n with
  | zero => omega
  | succ fuel ih =>
    by_cases h10 : n < 10
    · simp [natDigitsAux, h10, digitsVal, digitVal_digitChar h10]
    · have hdiv : n / 10 < fuel := by omega
      simp only [natDigitsAux, h10, if_false, digitsVal]
      rw [valFrom_append]
      have := ih hdiv
      simp only [digitsVal] at this
      simp [this, List.foldl, digitVal_digitChar (Nat.mod_lt n (by omega))]
      omega

theorem natDigitsAux_all {fuel n : ℕ} :
    (natDigitsAux fuel n).all isDigitCh = true := by
  induction fuel generalizing n with
  | zero => simp [natDigitsAux]
  | succ fuel ih =>
    by_cases h10 : n < 10
    · simp [natDigitsAux, h10, isDigitCh_digitChar h10]
    · simp [natDigitsAux, h10, ih, isDigitCh_digitChar (Nat.mod_lt n (by omega))]

theorem natDigitsAux_ne_nil {fuel n : ℕ} (h : n < fuel) :
    natDigitsAux fuel n ≠ [] := by
  cases fuel with
  | zero => omega
  | succ fuel =>
    by_cases h10 : n < 10 <;> simp [natDigitsAux, h10]

theorem natDigits_val (n : ℕ) : digitsVal (natDigits n) = n :=
  natDigitsAux_val (Nat.lt_succ_self n)

theorem natDigits_all (n : ℕ) : (natDigits n).all isDigitCh = true :=
  natDigitsAux_all

theorem natDigits_ne_nil (n : ℕ) : natDigits n ≠ [] :=
  natDigitsAux_ne_nil (Nat.lt_succ_self n)

theorem natDigitsAux_length_le {fuel n k : ℕ} (hf : n < fuel) (hk : 1 ≤ k)
    (h : n < 10 ^ k) : (natDigitsAux fuel n).length ≤ k := by
  induction fuel generalizing n k with
  | zero => omega
  | succ fuel ih =>
    by_cases h10 : n < 10
    · simpa [natDigitsAux, h10] using hk
    · have hk2 : 2 ≤ k := by
        by_contra hcon
        have hk1 : k = 1 := by omega
        subst hk1
        simp at h
        omega
      have hdiv : n / 10 < fuel := by omega
      have hpow : n / 10 < 10 ^ (k - 1) := by
        have : (10 : ℕ) ^ k = 10 ^ (k - 1) * 10 := by
          rw [← pow_succ]
          congr 1
          omega
        rw [Nat.div_lt_iff_lt_mul (by omega)]
        omega
      have := ih hdiv (by omega) hpow
      simp only [natDigitsAux, h10, if_false, List.length_append, List.length_cons,
        List.length_nil]
      omega

theorem digitsVal_padZeros (k : ℕ) (s : Str) : digitsVal (padZeros k s) = digitsVal s := by
  simp only [padZeros, digitsVal, List.foldl_append]
  congr 1
  induction (k - s.length) with
  | zero => rfl
  | succ m ih => simpa [List.replicate_succ, digitVal] using ih

theorem padZeros_all {k : ℕ} {s : Str} (h : s.all isDigitCh = true) :
    (padZeros k s).all isDigitCh = true := by
  simp only [padZeros, List.all_append, Bool.and_eq_true, List.all_eq_true]
  refine ⟨fun c hc => ?_, by simpa [List.all_eq_true] using h⟩
  rw [List.eq_of_mem_replicate hc]
  decide

theorem padZeros_ne_nil {k : ℕ} {s : Str} (h : s ≠ []) : padZeros k s ≠ [] := by
  simp only [padZeros, ne_eq, List.append_eq_nil]
  intro hcon
  exact h hcon.2

theorem digitsNum?_of_digits {s : Str} (h : s.all isDigitCh = true) (hne : s ≠ []) :
    digitsNum? s = some (digitsVal s) := by
  simp [digitsNum?, h, hne]

/-! ### Facts about stripping and splitting -/

theorem dropWhile_eq_self_of {p : Char → Bool} {s : Str}
    (h : ∀ c ∈ s, p c = false) : s.dropWhile p = s := by
  cases s with
  | nil => rfl
  | cons c cs => simp [List.dropWhile, h c (List.mem_cons_self c cs)]

theorem stripBy_eq_self {p : Char → Bool} {s : Str}
    (h : ∀ c ∈ s, p c = false) : stripBy p s = s := by
  unfold stripBy lstripBy rstripBy
  rw [dropWhile_eq_self_of h, dropWhile_eq_self_of, List.reverse_reverse]
  intro c hc
  exact h c (List.mem_reverse.mp hc)

theorem splitBy_no {p : Char → Bool} {s : Str}
    (h : ∀ c ∈ s, p c = false) : splitBy p s = [s] := by
  induction s with
  | nil => rfl
  | cons c cs ih =>
    have hc := h c (List.mem_cons_self c cs)
    have := ih (fun x hx => h x (List.mem_cons_of_mem c hx))
    simp [splitBy, hc, this]

theorem splitBy_append_cons {p : Char → Bool} {a : Str} {x : Char} {r : Str}
    (ha : ∀ c ∈ a, p c = false) (hx : p x = true) :
    splitBy p (a ++ x :: r) = a :: splitBy p r := by
  induction a with
  | nil => simp [splitBy, hx]
  | cons c cs ih =>
    have hc := ha c (List.mem_cons_self c cs)
    have := ih (fun y hy => ha y (List.mem_cons_of_mem c hy))
    simp [splitBy, hc, this]

theorem ne_of_digit {c x : Char} (h : isDigitCh c = true) (hx : isDigitCh x = false) :
    c ≠ x := by
  intro he
  rw [he, hx] at h
  cases h

theorem pyStrip_of_digits {s : Str} (h : ∀ c ∈ s, isDigitCh c = true) :
    pyStrip s = s :=
  stripBy_eq_self (fun c hc => pyWs_of_digit (h c hc))

theorem pyInt?_of_digit_head {s : Str} (hs : pyStrip s = s)
    (hd : ∃ c r, s = c :: r ∧ isDigitCh c = true) :
    pyInt? s = (digitsNum? s).map (fun (v : ℕ) => (v : ℤ)) := by
  obtain ⟨c, r, rfl, hc⟩ := hd
  unfold pyInt?
  rw [hs]
  show (if c = '-' then (digitsNum? r).map (fun (v : ℕ) => -(v : ℤ))
    else if c = '+' then (digitsNum? r).map (fun (v : ℕ) => (v : ℤ))
    else (digitsNum? (c :: r)).map (fun (v : ℕ) => (v : ℤ))) = _
  rw [if_neg (ne_of_digit hc (by decide)), if_neg (ne_of_digit hc (by decide))]

theorem pyFloat?_of_digit_head {s : Str} (hs : pyStrip s = s)
    (hd : ∃ c r, s = c :: r ∧ isDigitCh c = true) :
    pyFloat? s = pyFloatCore 1 s := by
  obtain ⟨c, r, rfl, hc⟩ := hd
  unfold pyFloat?
  rw [hs]
  show (if c = '-' then pyFloatCore (-1) r else if c = '+' then pyFloatCore 1 r
    else pyFloatCore 1 (c :: r)) = _
  rw [if_neg (ne_of_digit hc (by decide)), if_neg (ne_of_digit hc (by decide))]

theorem head_digit_of_ne_nil {s : Str} (hne : s ≠ [])
    (hmem : ∀ c ∈ s, isDigitCh c = true) :
    ∃ c r, s = c :: r ∧ isDigitCh c = true := by
  cases s with
  | nil => exact absurd rfl hne
  | cons c r => exact ⟨c, r, rfl, hmem c (List.mem_cons_self c r)⟩

theorem pyInt?_pad (k n : ℕ) : pyInt? (padZeros k (natDigits n)) = some (n : ℤ) := by
  have hall := padZeros_all (k := k) (natDigits_all n)
  have hne := padZeros_ne_nil (k := k) (natDigits_ne_nil n)
  have hmem : ∀ c ∈ padZeros k (natDigits n), isDigitCh c = true := by
    simpa [List.all_eq_true] using hall
  rw [pyInt?_of_digit_head (pyStrip_of_digits hmem) (head_digit_of_ne_nil hne hmem),
    digitsNum?_of_digits hall hne, digitsVal_padZeros, natDigits_val]
  rfl

theorem padZeros_length_eq {k : ℕ} {s : Str} (h : s.length ≤ k) :
    (padZeros k s).length = k := by
  simp only [padZeros, List.length_append, List.length_replicate]
  omega

theorem pyFloat?_pad (k a b : ℕ) (hb : b < 1000) :
    pyFloat? (padZeros k (natDigits a) ++ '.' :: padZeros 3 (natDigits b)) =
      some ((a : ℚ) + (b : ℚ) / 1000) := by
  have hallA := padZeros_all (k := k) (natDigits_all a)
  have hallB := padZeros_all (k := 3) (natDigits_all b)
  have hneA := padZeros_ne_nil (k := k) (natDigits_ne_nil a)
  have hneB := padZeros_ne_nil (k := 3) (natDigits_ne_nil b)
  have hmemA : ∀ c ∈ padZeros k (natDigits a), isDigitCh c = true := by
    simpa [List.all_eq_true] using hallA
  have hmemB : ∀ c ∈ padZeros 3 (natDigits b), isDigitCh c = true := by
    simpa [List.all_eq_true] using hallB
  have hlenB : (padZeros 3 (natDigits b)).length = 3 :=
    padZeros_length_eq (natDigitsAux_length_le (Nat.lt_succ_self b) (by omega)
      (by norm_num [hb]))
  have hstrip : pyStrip (padZeros k (natDigits a) ++ '.' :: padZeros 3 (natDigits b)) =
      padZeros k (natDigits a) ++ '.' :: padZeros 3 (natDigits b) := by
    apply stripBy_eq_self
    intro c hc
    rcases List.mem_append.mp hc with hc | hc
    · exact pyWs_of_digit (hmemA c hc)
    · rcases List.mem_cons.mp hc with rfl | hc
      · decide
      · exact pyWs_of_digit (hmemB c hc)
  have hsplit : splitCh '.' (padZeros k (natDigits a) ++ '.' :: padZeros 3 (natDigits b)) =
      [padZeros k (natDigits a), padZeros 3 (natDigits b)] := by
    unfold splitCh
    rw [splitBy_append_cons (fun c hc => by
        simpa using ne_of_digit (hmemA c hc) (by decide)) (by simp),
      splitBy_no (fun c hc => by
        simpa using ne_of_digit (hmemB c hc) (by decide))]
  have hd : ∃ c r, padZeros k (natDigits a) ++ '.' :: padZeros 3 (natDigits b) = c :: r ∧
      isDigitCh c = true := by
    obtain ⟨c, r, hp, hc⟩ := head_digit_of_ne_nil hneA hmemA
    exact ⟨c, r ++ '.' :: padZeros 3 (natDigits b), by rw [hp]; rfl, hc⟩
  rw [pyFloat?_of_digit_head hstrip hd]
  unfold pyFloatCore
  rw [hsplit]
  show (if (padZeros k (natDigits a) ≠ [] ∨ padZeros 3 (natDigits b) ≠ []) ∧
      (padZeros k (natDigits a)).all isDigitCh = true ∧
      (padZeros 3 (natDigits b)).all isDigitCh = true then
      some ((1 : ℚ) * ((digitsVal (padZeros k (natDigits a)) : ℚ) +
        (digitsVal (padZeros 3 (natDigits b)) : ℚ) / (10 : ℚ) ^ (padZeros 3 (natDigits b)).length))
    else none) = some ((a : ℚ) + (b : ℚ) / 1000)
  rw [if_pos ⟨Or.inl hneA, hallA, hallB⟩]
  rw [digitsVal_padZeros, digitsVal_padZeros, natDigits_val, natDigits_val, hlenB]
  norm_num

/-! ### Floor arithmetic for the timestamp codec -/

theorem floor_div_nat_q (x : ℚ) (d : ℕ) (hd : 0 < d) :
    ⌊x / (d : ℚ)⌋ = ⌊x⌋ / (d : ℤ) := by
  have hd' : (0 : ℚ) < (d : ℚ) := by exact_mod_cast hd
  have h0 := Int.emod_nonneg ⌊x⌋ (show (d : ℤ) ≠ 0 by exact_mod_cast hd.ne')
  have h1 := Int.emod_lt_of_pos ⌊x⌋ (show (0 : ℤ) < (d : ℤ) by exact_mod_cast hd)
  have h2 := Int.ediv_add_emod ⌊x⌋ (d : ℤ)
  have key1 : (d : ℤ) * (⌊x⌋ / (d : ℤ)) ≤ ⌊x⌋ := by linarith
  have key2 : ⌊x⌋ + 1 ≤ (d : ℤ) * (⌊x⌋ / (d : ℤ) + 1) := by nlinarith
  have hfl : ((⌊x⌋ : ℤ) : ℚ) ≤ x := Int.floor_le x
  have hfu : x < ⌊x⌋ + 1 := Int.lt_floor_add_one x
  set q : ℤ := ⌊x⌋ / (d : ℤ) with hq
  have c1 : (d : ℚ) * (q : ℚ) ≤ ((⌊x⌋ : ℤ) : ℚ) := by exact_mod_cast key1
  have c2 : ((⌊x⌋ : ℤ) : ℚ) + 1 ≤ (d : ℚ) * ((q : ℚ) + 1) := by exact_mod_cast key2
  rw [Int.floor_eq_iff]
  refine ⟨?_, ?_⟩
  · rw [le_div_iff₀ hd']
    nlinarith
  · rw [div_lt_iff₀ hd']
    nlinarith

theorem fmtInt_nonneg {k : ℕ} {n : ℤ} (h : 0 ≤ n) :
    fmtInt k n = padZeros k (natDigits n.toNat) :=
  if_neg (not_lt.mpr h)

theorem format_srt_time_eq (s : ℚ) (h : 0 ≤ s) :
    format_srt_time s =
      padZeros 2 (natDigits (⌊1000 * s⌋ / 3600000).toNat) ++ ':' ::
      (padZeros 2 (natDigits (⌊1000 * s⌋ / 60000 % 60).toNat) ++ ':' ::
      (padZeros 2 (natDigits (⌊1000 * s⌋ / 1000 % 60).toNat) ++ ',' ::
       padZeros 3 (natDigits (⌊1000 * s⌋ % 1000).toNat))) := by
  have hN : (0 : ℤ) ≤ ⌊1000 * s⌋ := Int.floor_nonneg.mpr (by positivity)
  have hours_eq : ⌊s / 3600⌋ = ⌊1000 * s⌋ / 3600000 := by
    have e1 : s / 3600 = (1000 * s) / ((3600000 : ℕ) : ℚ) := by push_cast; ring
    rw [e1, floor_div_nat_q _ _ (by norm_num)]
    norm_num
  have floor60 : ⌊s / 60⌋ = ⌊1000 * s⌋ / 60000 := by
    have e1 : s / 60 = (1000 * s) / ((60000 : ℕ) : ℚ) := by push_cast; ring
    rw [e1, floor_div_nat_q _ _ (by norm_num)]
    norm_num
  have floor1 : ⌊s⌋ = ⌊1000 * s⌋ / 1000 := by
    have e1 : s = (1000 * s) / ((1000 : ℕ) : ℚ) := by push_cast; ring
    rw [show ⌊s⌋ = ⌊(1000 * s) / ((1000 : ℕ) : ℚ)⌋ from by rw [← e1],
      floor_div_nat_q _ _ (by norm_num)]
    norm_num
  have minutes_eq : ⌊pyMod s 3600 / 60⌋ = ⌊1000 * s⌋ / 60000 % 60 := by
    have e1 : pyMod s 3600 / 60 = s / 60 - ((60 * ⌊s / 3600⌋ : ℤ) : ℚ) := by
      unfold pyMod
      push_cast
      ring
    rw [e1, Int.floor_sub_int, floor60, hours_eq]
    omega
  have secs_eq : ⌊pyMod s 60⌋ = ⌊1000 * s⌋ / 1000 % 60 := by
    have e1 : pyMod s 60 = s - ((60 * ⌊s / 60⌋ : ℤ) : ℚ) := by
      unfold pyMod
      push_cast
      ring
    rw [e1, Int.floor_sub_int, floor1, floor60]
    omega
  have millis_eq : ⌊pyMod s 1 * 1000⌋ = ⌊1000 * s⌋ % 1000 := by
    have hs1 : s / 1 = s := div_one s
    have e1 : pyMod s 1 * 1000 = 1000 * s - ((1000 * ⌊s / 1⌋ : ℤ) : ℚ) := by
      unfold pyMod
      push_cast
      ring
    rw [e1, Int.floor_sub_int, hs1, floor1]
    omega
  unfold format_srt_time
  rw [hours_eq, minutes_eq, secs_eq, millis_eq]
  show fmtInt 2 (⌊1000 * s⌋ / 3600000) ++ ':' ::
      (fmtInt 2 (⌊1000 * s⌋ / 60000 % 60) ++ ':' ::
      (fmtInt 2 (⌊1000 * s⌋ / 1000 % 60) ++ ',' :: fmtInt 3 (⌊1000 * s⌋ % 1000))) = _
  rw [fmtInt_nonneg (by omega), fmtInt_nonneg (by omega),
    fmtInt_nonneg (by omega), fmtInt_nonneg (by omega)]

theorem commaToDot_digits {s : Str} (h : ∀ c ∈ s, isDigitCh c = true) :
    commaToDot s = s := by
  induction s with
  | nil => rfl
  | cons c cs ih =>
    have hc : c ≠ ',' := ne_of_digit (h c (List.mem_cons_self c cs)) (by decide)
    simp [commaToDot, hc] at ih ⊢
    exact ih (fun x hx => h x (List.mem_cons_of_mem c hx))

theorem parse_srt_time_fields (hh mm ss ms : ℕ) (hms : ms < 1000) :
    parse_srt_time (padZeros 2 (natDigits hh) ++ ':' ::
      (padZeros 2 (natDigits mm) ++ ':' ::
      (padZeros 2 (natDigits ss) ++ ',' :: padZeros 3 (natDigits ms)))) =
      some ((hh : ℚ) * 3600 + (mm : ℚ) * 60 + ((ss : ℚ) + (ms : ℚ) / 1000)) := by
  have hmemA : ∀ c ∈ padZeros 2 (natDigits hh), isDigitCh c = true := by
    simpa [List.all_eq_true] using padZeros_all (k := 2) (natDigits_all hh)
  have hmemB : ∀ c ∈ padZeros 2 (natDigits mm), isDigitCh c = true := by
    simpa [List.all_eq_true] using padZeros_all (k := 2) (natDigits_all mm)
  have hmemC : ∀ c ∈ padZeros 2 (natDigits ss), isDigitCh c = true := by
    simpa [List.all_eq_true] using padZeros_all (k := 2) (natDigits_all ss)
  have hmemD : ∀ c ∈ padZeros 3 (natDigits ms), isDigitCh c = true := by
    simpa [List.all_eq_true] using padZeros_all (k := 3) (natDigits_all ms)
  have hstrip : pyStrip (padZeros 2 (natDigits hh) ++ ':' ::
      (padZeros 2 (natDigits mm) ++ ':' ::
      (padZeros 2 (natDigits ss) ++ ',' :: padZeros 3 (natDigits ms)))) =
      padZeros 2 (natDigits hh) ++ ':' ::
      (padZeros 2 (natDigits mm) ++ ':' ::
      (padZeros 2 (natDigits ss) ++ ',' :: padZeros 3 (natDigits ms))) := by
    apply stripBy_eq_self
    intro c hc
    rcases List.mem_append.mp hc with hc | hc
    · exact pyWs_of_digit (hmemA c hc)
    rcases List.mem_cons.mp hc with rfl | hc
    · decide
    rcases List.mem_append.mp hc with hc | hc
    · exact pyWs_of_digit (hmemB c hc)
    rcases List.mem_cons.mp hc with rfl | hc
    · decide
    rcases List.mem_append.mp hc with hc | hc
    · exact pyWs_of_digit (hmemC c hc)
    rcases List.mem_cons.mp hc with rfl | hc
    · decide
    exact pyWs_of_digit (hmemD c hc)
  have hmap : commaToDot (padZeros 2 (natDigits hh) ++ ':' ::
      (padZeros 2 (natDigits mm) ++ ':' ::
      (padZeros 2 (natDigits ss) ++ ',' :: padZeros 3 (natDigits ms)))) =
      padZeros 2 (natDigits hh) ++ ':' ::
      (padZeros 2 (natDigits mm) ++ ':' ::
      (padZeros 2 (natDigits ss) ++ '.' :: padZeros 3 (natDigits ms))) := by
    unfold commaToDot
    rw [List.map_append, List.map_cons, List.map_append, List.map_cons,
      List.map_append, List.map_cons]
    rw [if_pos (rfl : (',' : Char) = ',')]
    have eA := commaToDot_digits hmemA
    have eB := commaToDot_digits hmemB
    have eC := commaToDot_digits hmemC
    have eD := commaToDot_digits hmemD
    unfold commaToDot at eA eB eC eD
    rw [eA, eB, eC, eD, if_neg (by decide : ¬(':' = ','))]
  have hsplit : splitCh ':' (padZeros 2 (natDigits hh) ++ ':' ::
      (padZeros 2 (natDigits mm) ++ ':' ::
      (padZeros 2 (natDigits ss) ++ '.' :: padZeros 3 (natDigits ms)))) =
      [padZeros 2 (natDigits hh), padZeros 2 (natDigits mm),
       padZeros 2 (natDigits ss) ++ '.' :: padZeros 3 (natDigits ms)] := by
    unfold splitCh
    rw [splitBy_append_cons (fun c hc => by
        simpa using ne_of_digit (hmemA c hc) (by decide)) (by simp),
      splitBy_append_cons (fun c hc => by
        simpa using ne_of_digit (hmemB c hc) (by decide)) (by simp),
      splitBy_no (fun c hc => by
        rcases List.mem_append.mp hc with hc | hc
        · simpa using ne_of_digit (hmemC c hc) (by decide)
        rcases List.mem_cons.mp hc with rfl | hc
        · decide
        · simpa using ne_of_digit (hmemD c hc) (by decide))]
  have hA : pyInt? (padZeros 2 (natDigits hh)) = some (hh : ℤ) := pyInt?_pad 2 hh
  have hB : pyInt? (padZeros 2 (natDigits mm)) = some (mm : ℤ) := pyInt?_pad 2 mm
  have hCD : pyFloat? (padZeros 2 (natDigits ss) ++ '.' :: padZeros 3 (natDigits ms)) =
      some ((ss : ℚ) + (ms : ℚ) / 1000) := pyFloat?_pad 2 ss ms hms
  unfold parse_srt_time
  rw [hstrip, hmap]
  show (match splitCh ':' (padZeros 2 (natDigits hh) ++ ':' ::
      (padZeros 2 (natDigits mm) ++ ':' ::
      (padZeros 2 (natDigits ss) ++ '.' :: padZeros 3 (natDigits ms)))) with
    | p0 :: p1 :: p2 :: _ =>
      (match pyInt? p0, pyInt? p1, pyFloat? p2 with
       | some hours, some minutes, some seconds =>
         some ((hours : ℚ) * 3600 + (minutes : ℚ) * 60 + seconds)
       | _, _, _ => none)
    | _ => none) = _
  rw [hsplit]
  show (match pyInt? (padZeros 2 (natDigits hh)), pyInt? (padZeros 2 (natDigits mm)),
      pyFloat? (padZeros 2 (natDigits ss) ++ '.' :: padZeros 3 (natDigits ms)) with
    | some hours, some minutes, some seconds =>
      some ((hours : ℚ) * 3600 + (minutes : ℚ) * 60 + seconds)
    | _, _, _ => none) = _
  rw [hA, hB, hCD]
  show some (((hh : ℤ) : ℚ) * 3600 + ((mm : ℤ) : ℚ) * 60 + ((ss : ℚ) + (ms : ℚ) / 1000)) = _
  norm_num

theorem parse_format_eq (s : ℚ) (h : 0 ≤ s) :
    parse_srt_time (format_srt_time s) = some (((⌊1000 * s⌋ : ℤ) : ℚ) / 1000) := by
  have hN : (0 : ℤ) ≤ ⌊1000 * s⌋ := Int.floor_nonneg.mpr (by positivity)
  rw [format_srt_time_eq s h,
    parse_srt_time_fields _ _ _ _ (by omega)]
  have cast_toNat : ∀ z : ℤ, 0 ≤ z → ((z.toNat : ℕ) : ℚ) = (z : ℚ) := by
    intro z hz
    have := congrArg (fun w : ℤ => (w : ℚ)) (Int.toNat_of_nonneg hz)
    push_cast at this
    exact this
  have e1 := cast_toNat (⌊1000 * s⌋ / 3600000) (by omega)
  have e2 := cast_toNat (⌊1000 * s⌋ / 60000 % 60) (by omega)
  have e3 := cast_toNat (⌊1000 * s⌋ / 1000 % 60) (by omega)
  have e4 := cast_toNat (⌊1000 * s⌋ % 1000) (by omega)
  have key : 3600000 * (⌊1000 * s⌋ / 3600000) + 60000 * (⌊1000 * s⌋ / 60000 % 60) +
      1000 * (⌊1000 * s⌋ / 1000 % 60) + ⌊1000 * s⌋ % 1000 = ⌊1000 * s⌋ := by
    omega
  have keyq : 3600000 * ((⌊1000 * s⌋ / 3600000 : ℤ) : ℚ) +
      60000 * ((⌊1000 * s⌋ / 60000 % 60 : ℤ) : ℚ) +
      1000 * ((⌊1000 * s⌋ / 1000 % 60 : ℤ) : ℚ) + ((⌊1000 * s⌋ % 1000 : ℤ) : ℚ) =
      ((⌊1000 * s⌋ : ℤ) : ℚ) := by
    exact_mod_cast key
  have hv : ((⌊1000 * s⌋ / 3600000).toNat : ℚ) * 3600 +
      ((⌊1000 * s⌋ / 60000 % 60).toNat : ℚ) * 60 +
      (((⌊1000 * s⌋ / 1000 % 60).toNat : ℚ) + ((⌊1000 * s⌋ % 1000).toNat : ℚ) / 1000) =
      ((⌊1000 * s⌋ : ℤ) : ℚ) / 1000 := by
    rw [e1, e2, e3, e4]
    field_simp
    linarith
  rw [hv]

/-- C1: for every non-negative number of seconds `s`, decoding the
block-format timestamp produced by encoding `s` (encode via
`_format_srt_time` to `HH:MM:SS,mmm`, decode via `parse_srt_time`)
succeeds and yields a value equal to `s` to the nearest millisecond:
the decoded value is `⌊1000 s⌋ / 1000`, within `1/1000` of `s`. -/
theorem srt_time_round_trip (s : ℚ) (h : 0 ≤ s) :
    ∃ v : ℚ, parse_srt_time (format_srt_time s) = some v ∧
      v = ((⌊1000 * s⌋ : ℤ) : ℚ) / 1000 ∧ |v - s| < 1 / 1000 := by
  refine ⟨_, parse_format_eq s h, rfl, ?_⟩
  have h1 : ((⌊1000 * s⌋ : ℤ) : ℚ) ≤ 1000 * s := Int.floor_le _
  have h2 : 1000 * s < ((⌊1000 * s⌋ : ℤ) : ℚ) + 1 := Int.lt_floor_add_one _
  rw [abs_lt]
  constructor <;> linarith

/-! ### Segment model and the SRT writers (transcribe.py) -/

theorem write_srt_simple_aux_spec (segments : List LyricSegment) :
    ∀ i : ℕ,
      (write_srt_simple_aux i segments).length = segments.length ∧
      (write_srt_simple_aux i segments).map SrtBlock.index =
        List.range' i segments.length ∧
      (write_srt_simple_aux i segments).map SrtBlock.text =
        segments.map LyricSegment.text ∧
      (write_srt_simple_aux i segments).map SrtBlock.start =
        segments.map LyricSegment.start ∧
      (write_srt_simple_aux i segments).map SrtBlock.stop =
        segments.map LyricSegment.stop := by
  induction segments with
  | nil => intro i; simp [write_srt_simple_aux]
  | cons seg rest ih =>
    intro i
    obtain ⟨h1, h2, h3, h4, h5⟩ := ih (i + 1)
    refine ⟨?_, ?_, ?_, ?_, ?_⟩ <;>
      simp [write_srt_simple_aux, List.range'_succ, h1, h2, h3, h4, h5]

/-- C7: in simple mode the synthesizer emits exactly one entry per segment
(`len(output) == len(input)`), with `output[i].index == i+1` (the indices
are `1, 2, …, n` in order) and each entry's text / time range equal to the
segment's verbatim. -/
theorem simple_mode_spec (segments : List LyricSegment) :
    (write_srt_simple segments).length = segments.length ∧
    (write_srt_simple segments).map SrtBlock.index =
      List.range' 1 segments.length ∧
    (write_srt_simple segments).map SrtBlock.text =
      segments.map LyricSegment.text ∧
    (write_srt_simple segments).map SrtBlock.start =
      segments.map LyricSegment.start ∧
    (write_srt_simple segments).map SrtBlock.stop =
      segments.map LyricSegment.stop :=
  write_srt_simple_aux_spec segments 1

/-! ### C2 / C3: word-highlight mode -/

theorem keepWord_true_iff (w : WordInfo) : keepWord w = true ↔ pyStrip w.word ≠ [] := by
  simp [keepWord, List.isEmpty_iff]

theorem wordEntries_eq (fullText : Str) :
    ∀ (ws : List WordInfo) (idx : ℕ),
      wordEntries fullText idx ws =
        (List.zipWith (highlightBlock fullText)
          (List.range' idx ((ws.filter keepWord).length)) (ws.filter keepWord),
         idx + (ws.filter keepWord).length) := by
  intro ws
  induction ws with
  | nil => intro idx; simp [wordEntries]
  | cons w rest ih =>
    intro idx
    by_cases hw : pyStrip w.word = []
    · rw [List.filter_cons_of_neg (by simp [keepWord, hw])]
      simpa [wordEntries, hw] using ih idx
    · rw [List.filter_cons_of_pos (by simp [keepWord, hw])]
      simp only [wordEntries, if_neg hw, List.length_cons, List.range'_succ,
        List.zipWith_cons_cons, ih (idx + 1)]
      exact congrArg₂ Prod.mk (by simp [highlightBlock]) (by omega)

theorem map_index_zipWith_highlight (full : Str) :
    ∀ (r : List ℕ) (l : List WordInfo), r.length = l.length →
      (List.zipWith (highlightBlock full) r l).map SrtBlock.index = r := by
  intro r
  induction r with
  | nil => intro l _; simp
  | cons i r ih =>
    intro l hl
    cases l with
    | nil => simp at hl
    | cons w l =>
      simp only [List.zipWith_cons_cons, List.map_cons, highlightBlock]
      rw [ih l (by simpa using hl)]

theorem write_srt_word_highlight_aux_indices (segments : List LyricSegment) :
    ∀ idx : ℕ,
      (write_srt_word_highlight_aux idx segments).map SrtBlock.index =
        List.range' idx (write_srt_word_highlight_aux idx segments).length := by
  induction segments with
  | nil => intro idx; simp [write_srt_word_highlight_aux]
  | cons seg rest ih =>
    intro idx
    match hw : seg.words with
    | none =>
      simp only [write_srt_word_highlight_aux, hw, List.map_cons, List.length_cons,
        List.range'_succ, ih (idx + 1)]
    | some [] =>
      simp only [write_srt_word_highlight_aux, hw, List.map_cons, List.length_cons,
        List.range'_succ, ih (idx + 1)]
    | some (w :: ws) =>
      simp only [write_srt_word_highlight_aux, hw, wordEntries_eq]
      set k := ((w :: ws).filter keepWord).length with hk
      have hzl : (List.zipWith (highlightBlock seg.text) (List.range' idx k)
          ((w :: ws).filter keepWord)).length = k := by
        simp [List.length_zipWith, hk]
      rw [List.map_append, map_index_zipWith_highlight seg.text _ _ (by simp [hk]),
        ih (idx + k), List.length_append, hzl]
      have hra : List.range' idx k ++ List.range' (idx + k)
          (write_srt_word_highlight_aux (idx + k) rest).length =
          List.range' idx (k + (write_srt_word_highlight_aux (idx + k) rest).length) := by
        have h0 := List.range'_append idx k
          ((write_srt_word_highlight_aux (idx + k) rest).length) 1
        rw [one_mul] at h0
        rw [h0, Nat.add_comm]
      rw [← hra]

/-- C2 counterexample: in word-highlight mode, a segment that has exactly one
token whose surface form is whitespace only produces `0` entries, not `1`:
the writer skips tokens whose stripped surface is empty, so the output count
is not the sum of the segments' token counts. -/
theorem word_highlight_count_cex :
    (write_srt_word_highlight [wsTokenSegment]).length = 0 ∧
    ([wsTokenSegment] : List LyricSegment).map
      (fun seg => (seg.words.getD []).length) = [1] :=
  ⟨rfl, rfl⟩

/-- C2 (amended): in word-highlight mode, when every segment has at least one
token, the number of emitted entries equals the sum over segments of the
number of tokens whose stripped surface form is non-empty (for inputs with no
whitespace-only tokens this is exactly the total token count), and the index
numbering is one single continuous counter `1, 2, …, N` across the whole
output. -/
theorem word_highlight_count (segments : List LyricSegment)
    (h : ∀ seg ∈ segments, ∃ ws, seg.words = some ws ∧ ws ≠ []) :
    (write_srt_word_highlight segments).length =
      (segments.map (fun seg =>
        ((seg.words.getD []).filter keepWord).length)).sum ∧
    (write_srt_word_highlight segments).map SrtBlock.index =
      List.range' 1 (write_srt_word_highlight segments).length := by
  refine ⟨?_, write_srt_word_highlight_aux_indices segments 1⟩
  suffices hgen : ∀ idx : ℕ,
      (write_srt_word_highlight_aux idx segments).length =
        (segments.map (fun seg =>
          ((seg.words.getD []).filter keepWord).length)).sum from
    hgen 1
  induction segments with
  | nil => intro idx; simp [write_srt_word_highlight_aux]
  | cons seg rest ih =>
    intro idx
    obtain ⟨ws, hws, hne⟩ := h seg (List.mem_cons_self seg rest)
    have ihr := ih (fun s hs => h s (List.mem_cons_of_mem seg hs))
    cases ws with
    | nil => exact absurd rfl hne
    | cons w ws =>
      simp only [write_srt_word_highlight_aux, hws, wordEntries_eq, List.map_cons,
        List.sum_cons, List.length_append, List.length_zipWith, List.length_range',
        Nat.min_self, ihr, hws, Option.getD_some]

theorem replaceFirstAux_spec (old new : Str) (hold : old ≠ []) :
    ∀ s : Str, (∃ i, occursAt old s i) →
      ∃ i0, occursAt old s i0 ∧ (∀ j, j < i0 → ¬ occursAt old s j) ∧
        replaceFirstAux old new s = s.take i0 ++ new ++ s.drop (i0 + old.length) := by
  intro s
  induction s with
  | nil =>
    rintro ⟨i, hi⟩
    exfalso
    unfold occursAt at hi
    simp only [List.drop_nil] at hi
    rw [List.isPrefixOf_iff_prefix] at hi
    simp only [List.prefix_nil] at hi
    exact hold hi
  | cons c cs ih =>
    rintro ⟨i, hi⟩
    by_cases hp : old.isPrefixOf (c :: cs) = true
    · refine ⟨0, ?_, by omega, ?_⟩
      · simpa [occursAt] using hp
      · simp [replaceFirstAux, hp]
    · have hi' : ∃ i', occursAt old cs i' := by
        cases i with
        | zero => exact absurd (by simpa [occursAt] using hi) hp
        | succ i' => exact ⟨i', by simpa [occursAt] using hi⟩
      obtain ⟨i0, h1, h2, h3⟩ := ih hi'
      refine ⟨i0 + 1, by simpa [occursAt] using h1, ?_, ?_⟩
      · intro j hj
        cases j with
        | zero => simpa [occursAt] using hp
        | succ j' =>
          intro hcon
          exact h2 j' (by omega) (by simpa [occursAt] using hcon)
      · simp only [replaceFirstAux, if_neg hp, h3, List.take_succ_cons, List.cons_append]
        have harith : i0 + 1 + old.length = i0 + old.length + 1 := by omega
        rw [harith, List.drop_succ_cons]

/-- C3: in word-highlight mode the emitted entry's text wraps only the
first literal occurrence of the token's surface form.  First conjunct: the
replacement primitive used by the writer rewrites exactly the first
occurrence (the occurrence at the least position), leaving the prefix
untouched.  Second and third conjuncts: for segment text `"go go go"` with
one token `"go"` timed at the second occurrence (1s–2s), the single emitted
entry wraps the first literal `"go"`. -/
theorem word_highlight_first_occurrence :
    (∀ (full old new : Str), old ≠ [] → (∃ i, occursAt old full i) →
      ∃ i0, occursAt old full i0 ∧ (∀ j, j < i0 → ¬ occursAt old full j) ∧
        replaceFirst full old new = full.take i0 ++ new ++ full.drop (i0 + old.length)) ∧
    (write_srt_word_highlight [goSegment]).map SrtBlock.text =
      ["<font color=\"#00ff00\">go</font> go go".data] ∧
    (write_srt_word_highlight [goSegment]).map SrtBlock.index = [1] := by
  refine ⟨fun full old new hold hocc => ?_, by decide, by decide⟩
  obtain ⟨i0, h1, h2, h3⟩ := replaceFirstAux_spec old new hold full hocc
  exact ⟨i0, h1, h2, by rw [replaceFirst, if_neg hold]; exact h3⟩

/-- Witness for C3 at a concrete input: the pattern `"go"` occurs in
`"go go go"`, and the first conjunct of the theorem applies there. -/
theorem word_highlight_first_occurrence_witness :
    ("go".data : Str) ≠ [] ∧ (∃ i, occursAt "go".data "go go go".data i) ∧
    ∃ i0, occursAt "go".data "go go go".data i0 ∧
      (∀ j, j < i0 → ¬ occursAt "go".data "go go go".data j) ∧
      replaceFirst "go go go".data "go".data "X".data =
        ("go go go".data).take i0 ++ "X".data ++
          ("go go go".data).drop (i0 + ("go".data).length) :=
  ⟨by decide, ⟨0, by decide⟩,
    word_highlight_first_occurrence.1 "go go go".data "go".data "X".data
      (by decide) ⟨0, by decide⟩⟩

/-- Witness for C2 (amended) at a concrete input: one segment with one
non-whitespace token yields one entry, numbered 1. -/
theorem word_highlight_count_witness :
    (∀ seg ∈ ([oneTokenSegment] : List LyricSegment),
      ∃ ws, seg.words = some ws ∧ ws ≠ []) ∧
    ((write_srt_word_highlight [oneTokenSegment]).length =
      (([oneTokenSegment] : List LyricSegment).map (fun seg =>
        ((seg.words.getD []).filter keepWord).length)).sum ∧
     (write_srt_word_highlight [oneTokenSegment]).map SrtBlock.index =
      List.range' 1 (write_srt_word_highlight [oneTokenSegment]).length) := by
  have hseg : ∀ seg ∈ ([oneTokenSegment] : List LyricSegment),
      ∃ ws, seg.words = some ws ∧ ws ≠ [] := by
    intro seg hs
    rcases List.mem_singleton.mp hs with rfl
    exact ⟨_, rfl, by decide⟩
  exact ⟨hseg, word_highlight_count _ hseg⟩

/-- Witness for C1 at `s = 3661.5` seconds (01:01:01,500). -/
theorem srt_time_round_trip_witness :
    (0 : ℚ) ≤ 3661.5 ∧
    ∃ v : ℚ, parse_srt_time (format_srt_time 3661.5) = some v ∧
      v = ((⌊1000 * (3661.5 : ℚ)⌋ : ℤ) : ℚ) / 1000 ∧ |v - 3661.5| < 1 / 1000 :=
  ⟨by norm_num, srt_time_round_trip 3661.5 (by norm_num)⟩

/-! ### The timeline validator (scripts/validate_timing.py) -/

/-- C9: for every parsed entry sequence and optional expected word list the
validator is total — it returns a report echoing the inputs (never raises;
in this embedding totality is the type, and the first two conjuncts pin the
report to the input) — and classifies exactly as claimed: every reported
issue is overlap, non-sequential or missing-words, and every reported
warning is short-duration, long-duration, extra-words or large-gaps. -/
theorem validator_classification (entries : List SRTEntry)
    (expected_words : Option (List Str)) :
    (validate_format entries expected_words).num_entries = entries.length ∧
    (validate_format entries expected_words).entries = entries ∧
    ((validate_format entries expected_words).issues.all fun i =>
      i.kind = .OVERLAPPING_ENTRIES ∨ i.kind = .NON_SEQUENTIAL ∨
        i.kind = .MISSING_WORDS) = true ∧
    ((validate_format entries expected_words).warnings.all fun w =>
      w.kind = .VERY_SHORT_DURATION ∨ w.kind = .VERY_LONG_DURATION ∨
        w.kind = .EXTRA_WORDS ∨ w.kind = .LARGE_GAPS) = true := by
  refine ⟨rfl, rfl, ?_, ?_⟩ <;>
    (unfold validate_format
     rcases expected_words with _ | ew
     · simp [List.all_append] <;> (repeat' constructor) <;>
         (intros; subst_vars; simp)
     · by_cases hew : ew = [] <;>
         simp [hew, List.all_append] <;> (repeat' constructor) <;>
           (intros; subst_vars; simp))

/-! ### C5: the overlap check -/

theorem overlapPairs_mem : ∀ (entries : List SRTEntry) (e f : SRTEntry),
    (e, f) ∈ overlapPairs entries ↔
      ∃ i j : ℕ, i < j ∧ entries[i]? = some e ∧ entries[j]? = some f ∧
        e.overlaps_with f = true := by
  intro entries
  induction entries with
  | nil => intro e f; simp [overlapPairs]
  | cons a rest ih =>
    intro e f
    constructor
    · intro hm
      rcases List.mem_append.mp hm with hm | hm
      · rcases List.mem_map.mp hm with ⟨o, ho, heq⟩
        rcases List.mem_filter.mp ho with ⟨hof, hov⟩
        have hae : a = e := congrArg Prod.fst heq
        have hof2 : o = f := congrArg Prod.snd heq
        subst hae
        subst hof2
        obtain ⟨j, hj⟩ := List.mem_iff_getElem?.mp hof
        exact ⟨0, j + 1, by omega, by simp, by simpa using hj, hov⟩
      · obtain ⟨i, j, hij, hi, hj, hov⟩ := (ih e f).mp hm
        exact ⟨i + 1, j + 1, by omega, by simpa using hi, by simpa using hj, hov⟩
    · rintro ⟨i, j, hij, hi, hj, hov⟩
      cases i with
      | zero =>
        have hae : a = e := by simpa using hi
        subst hae
        cases j with
        | zero => omega
        | succ j2 =>
          have hf : rest[j2]? = some f := by simpa using hj
          have hfm : f ∈ rest := List.mem_iff_getElem?.mpr ⟨j2, hf⟩
          exact List.mem_append.mpr (Or.inl (List.mem_map.mpr
            ⟨f, List.mem_filter.mpr ⟨hfm, hov⟩, rfl⟩))
      | succ i2 =>
        cases j with
        | zero => omega
        | succ j2 =>
          exact List.mem_append.mpr (Or.inr ((ih e f).mpr
            ⟨i2, j2, by omega, by simpa using hi, by simpa using hj, hov⟩))

theorem validate_overlap_issue (entries : List SRTEntry) (ew : Option (List Str)) :
    (validate_format entries ew).issues.filter
        (fun i => i.kind = .OVERLAPPING_ENTRIES) =
      if overlapPairs entries ≠ [] then
        [{ kind := .OVERLAPPING_ENTRIES, count := (overlapPairs entries).length,
           examples := (overlapPairs entries).take 3 }]
      else [] := by
  unfold validate_format
  rcases ew with _ | ew
  · by_cases ho : overlapPairs entries = [] <;>
      by_cases hn : nonSequentialPairs entries = [] <;>
        simp [ho, hn]
  · by_cases hew : ew = []
    · by_cases ho : overlapPairs entries = [] <;>
        by_cases hn : nonSequentialPairs entries = [] <;>
          simp [hew, ho, hn]
    · by_cases ho : overlapPairs entries = [] <;>
        by_cases hn : nonSequentialPairs entries = [] <;>
          by_cases hm : missingWords ew entries = [] <;>
            simp [hew, ho, hn, hm]

/-- C5: the overlap check.  (1) `overlaps_with` is exactly the symmetric
condition `a.start < b.end ∧ b.start < a.end`.  (2) The pairs collected are
exactly all index pairs `i < j` (not only adjacent ones) whose entries
overlap.  (3) The report carries one overlap issue with the total count and
at most the first 3 example pairs whenever any overlap exists, and none
otherwise.  (4) On `[(idx 1, 0.0–2.0), (idx 2, 1.0–3.0)]` the report has
exactly one overlap issue with count 1 and example pair `(A, B)`, whose
computed overlap amount `max(0, a.end - b.start)` equals `1.0`. -/
theorem overlap_check_spec :
    (∀ a b : SRTEntry,
      (a.overlaps_with b = true ↔ a.start < b.stop ∧ b.start < a.stop) ∧
      a.overlaps_with b = b.overlaps_with a) ∧
    (∀ (entries : List SRTEntry) (e f : SRTEntry),
      (e, f) ∈ overlapPairs entries ↔
        ∃ i j : ℕ, i < j ∧ entries[i]? = some e ∧ entries[j]? = some f ∧
          e.overlaps_with f = true) ∧
    (∀ (entries : List SRTEntry) (ew : Option (List Str)),
      (validate_format entries ew).issues.filter
          (fun i => i.kind = .OVERLAPPING_ENTRIES) =
        if overlapPairs entries ≠ [] then
          [{ kind := .OVERLAPPING_ENTRIES, count := (overlapPairs entries).length,
             examples := (overlapPairs entries).take 3 }]
        else []) ∧
    ((validate_format [overlapEntryA, overlapEntryB] none).issues.filter
        (fun i => i.kind = .OVERLAPPING_ENTRIES) =
      [{ kind := .OVERLAPPING_ENTRIES, count := 1,
         examples := [(overlapEntryA, overlapEntryB)] }]) ∧
    max 0 (overlapEntryA.stop - overlapEntryB.start) = 1 := by
  have hsym : ∀ a b : SRTEntry,
      (a.overlaps_with b = true ↔ a.start < b.stop ∧ b.start < a.stop) ∧
      a.overlaps_with b = b.overlaps_with a := by
    intro a b
    constructor
    · simp [SRTEntry.overlaps_with]
    · simp only [SRTEntry.overlaps_with]
      by_cases h1 : a.start < b.stop <;> by_cases h2 : b.start < a.stop <;>
        simp [h1, h2]
  have hop : overlapPairs [overlapEntryA, overlapEntryB] =
      [(overlapEntryA, overlapEntryB)] := by
    have hov : overlapEntryA.overlaps_with overlapEntryB = true := by
      simp only [SRTEntry.overlaps_with, overlapEntryA, overlapEntryB]
      norm_num
    simp [overlapPairs, hov]
  refine ⟨hsym, overlapPairs_mem, validate_overlap_issue, ?_, ?_⟩
  · rw [validate_overlap_issue, hop]
    simp
  · simp only [overlapEntryA, overlapEntryB]
    norm_num

/-! ### C6: the word-coverage check -/

theorem stripBy_decomposition (p : Char → Bool) (s : Str) :
    ∃ pre suf, s = pre ++ stripBy p s ++ suf ∧
      (∀ c ∈ pre, p c = true) ∧ (∀ c ∈ suf, p c = true) ∧
      (∀ c, (stripBy p s).head? = some c → p c = false) ∧
      (∀ c, (stripBy p s).getLast? = some c → p c = false) := by
  have hstrip : stripBy p s = ((s.dropWhile p).reverse.dropWhile p).reverse := rfl
  have h1 : s = s.takeWhile p ++ s.dropWhile p :=
    (List.takeWhile_append_dropWhile p s).symm
  have h2 : (s.dropWhile p).reverse =
      (s.dropWhile p).reverse.takeWhile p ++ (s.dropWhile p).reverse.dropWhile p :=
    (List.takeWhile_append_dropWhile p _).symm
  have h3 : s.dropWhile p =
      stripBy p s ++ ((s.dropWhile p).reverse.takeWhile p).reverse := by
    rw [hstrip]
    conv_lhs => rw [← List.reverse_reverse (s.dropWhile p), h2, List.reverse_append]
  refine ⟨s.takeWhile p, ((s.dropWhile p).reverse.takeWhile p).reverse, ?_, ?_, ?_, ?_, ?_⟩
  · conv_lhs => rw [h1, h3]
    simp
  · intro c hc
    exact List.mem_takeWhile_imp hc
  · intro c hc
    exact List.mem_takeWhile_imp (List.mem_reverse.mp hc)
  · intro c hc
    have hh : (s.dropWhile p).head? = some c := by
      rw [h3, List.head?_append, hc]
      rfl
    have h4 := List.head?_dropWhile_not p s
    rw [hh] at h4
    exact h4
  · intro c hc
    have hh : ((s.dropWhile p).reverse.dropWhile p).head? = some c := by
      rw [hstrip, List.getLast?_reverse] at hc
      exact hc
    have h4 := List.head?_dropWhile_not p (s.dropWhile p).reverse
    rw [hh] at h4
    exact h4

theorem validate_missing_issue (entries : List SRTEntry) (ew : List Str) :
    (validate_format entries (some ew)).issues.filter
        (fun i => i.kind = .MISSING_WORDS) =
      if ew ≠ [] ∧ missingWords ew entries ≠ [] then
        [{ kind := .MISSING_WORDS, count := (missingWords ew entries).length,
           words := missingWords ew entries }]
      else [] := by
  unfold validate_format
  by_cases hew : ew = []
  · by_cases ho : overlapPairs entries = [] <;>
      by_cases hn : nonSequentialPairs entries = [] <;>
        simp [hew, ho, hn]
  · by_cases ho : overlapPairs entries = [] <;>
      by_cases hn : nonSequentialPairs entries = [] <;>
        by_cases hm : missingWords ew entries = [] <;>
          simp [hew, ho, hn, hm]

theorem validate_extra_warning (entries : List SRTEntry) (ew : List Str) :
    (validate_format entries (some ew)).warnings.filter
        (fun i => i.kind = .EXTRA_WORDS) =
      if ew ≠ [] ∧ extraWords ew entries ≠ [] then
        [{ kind := .EXTRA_WORDS, count := (extraWords ew entries).length,
           words := extraWords ew entries }]
      else [] := by
  unfold validate_format
  by_cases hew : ew = []
  · by_cases hs : entries.filter (fun e => e.duration < 0.1) = [] <;>
      by_cases hl : entries.filter (fun e => e.duration > 10.0) = [] <;>
        by_cases hg : largeGapPairs entries = [] <;>
          simp [hew, hs, hl, hg]
  · by_cases hs : entries.filter (fun e => e.duration < 0.1) = [] <;>
      by_cases hl : entries.filter (fun e => e.duration > 10.0) = [] <;>
        by_cases hg : largeGapPairs entries = [] <;>
          by_cases hx : extraWords ew entries = [] <;>
            simp [hew, hs, hl, hg, hx]

/-- C6 (amended): when an expected word list is supplied, the validator
lower-cases the entries' plain text, whitespace-splits it, strips
punctuation characters (`.,!?;:`) from BOTH ends of each token — leading
as well as trailing, this is the amendment — dropping tokens that become
empty, and reports `missing = expectedSet - foundSet` as a blocking issue
and `extra = foundList - expectedSet` as a non-blocking warning that
preserves duplicates and order (a sublist of the found list, not
deduplicated). -/
theorem word_coverage_spec (entries : List SRTEntry) (ew : List Str) (hew : ew ≠ []) :
    (∀ s : Str, ∃ pre suf, s = pre ++ stripChars punctSet s ++ suf ∧
      (∀ c ∈ pre, punctSet.contains c = true) ∧
      (∀ c ∈ suf, punctSet.contains c = true) ∧
      (∀ c, (stripChars punctSet s).head? = some c → punctSet.contains c = false) ∧
      (∀ c, (stripChars punctSet s).getLast? = some c → punctSet.contains c = false)) ∧
    (∀ w, w ∈ missingWords ew entries ↔ w ∈ ew ∧ w ∉ transcribedWords entries) ∧
    extraWords ew entries = (transcribedWords entries).filter (fun w => w ∉ ew) ∧
    (extraWords ew entries).Sublist (transcribedWords entries) ∧
    ((validate_format entries (some ew)).issues.filter
        (fun i => i.kind = .MISSING_WORDS) =
      if missingWords ew entries ≠ [] then
        [{ kind := .MISSING_WORDS, count := (missingWords ew entries).length,
           words := missingWords ew entries }]
      else []) ∧
    ((validate_format entries (some ew)).warnings.filter
        (fun i => i.kind = .EXTRA_WORDS) =
      if extraWords ew entries ≠ [] then
        [{ kind := .EXTRA_WORDS, count := (extraWords ew entries).length,
           words := extraWords ew entries }]
      else []) := by
  refine ⟨fun s => stripBy_decomposition _ s, ?_, rfl, List.filter_sublist _, ?_, ?_⟩
  · intro w
    simp [missingWords, List.mem_filter, List.mem_dedup]
  · rw [validate_missing_issue]
    by_cases hm : missingWords ew entries = [] <;> simp [hew, hm]
  · rw [validate_extra_warning]
    by_cases hx : extraWords ew entries = [] <;> simp [hew, hx]

/-- C6 counterexample: the code strips LEADING punctuation too, not only
trailing.  For entry text `",,hi"` with expected words `["hi"]` the code
collects `"hi"` and reports no missing words; the trailing-only extraction
the claim describes collects `",,hi"`, under which `"hi"` would be missing
and a blocking issue would be reported. -/
theorem word_coverage_cex :
    transcribedWords [punctEntry] = ["hi".data] ∧
    claimTrailingWords [punctEntry] = [",,hi".data] ∧
    transcribedWords [punctEntry] ≠ claimTrailingWords [punctEntry] ∧
    (validate_format [punctEntry] (some ["hi".data])).issues.filter
      (fun i => i.kind = .MISSING_WORDS) = [] ∧
    (["hi".data] : List Str).dedup.filter
      (fun w => w ∉ claimTrailingWords [punctEntry]) = ["hi".data] := by
  have hm : missingWords ["hi".data] [punctEntry] = [] := by decide
  refine ⟨by decide, by decide, by decide, ?_, by decide⟩
  rw [validate_missing_issue, hm]
  simp

/-- Witness for C6 (amended) at a concrete input: expected words `["hi"]`
(non-empty) against the single entry `",,hi"`. -/
theorem word_coverage_spec_witness :
    (["hi".data] : List Str) ≠ [] ∧
    ((∀ s : Str, ∃ pre suf, s = pre ++ stripChars punctSet s ++ suf ∧
      (∀ c ∈ pre, punctSet.contains c = true) ∧
      (∀ c ∈ suf, punctSet.contains c = true) ∧
      (∀ c, (stripChars punctSet s).head? = some c → punctSet.contains c = false) ∧
      (∀ c, (stripChars punctSet s).getLast? = some c → punctSet.contains c = false)) ∧
    (∀ w, w ∈ missingWords ["hi".data] [punctEntry] ↔
      w ∈ (["hi".data] : List Str) ∧ w ∉ transcribedWords [punctEntry]) ∧
    extraWords ["hi".data] [punctEntry] =
      (transcribedWords [punctEntry]).filter (fun w => w ∉ (["hi".data] : List Str)) ∧
    (extraWords ["hi".data] [punctEntry]).Sublist (transcribedWords [punctEntry]) ∧
    ((validate_format [punctEntry] (some ["hi".data])).issues.filter
        (fun i => i.kind = .MISSING_WORDS) =
      if missingWords ["hi".data] [punctEntry] ≠ [] then
        [{ kind := .MISSING_WORDS, count := (missingWords ["hi".data] [punctEntry]).length,
           words := missingWords ["hi".data] [punctEntry] }]
      else []) ∧
    ((validate_format [punctEntry] (some ["hi".data])).warnings.filter
        (fun i => i.kind = .EXTRA_WORDS) =
      if extraWords ["hi".data] [punctEntry] ≠ [] then
        [{ kind := .EXTRA_WORDS, count := (extraWords ["hi".data] [punctEntry]).length,
           words := extraWords ["hi".data] [punctEntry] }]
      else [])) :=
  ⟨by decide, word_coverage_spec [punctEntry] ["hi".data] (by decide)⟩

/-! ### The enhancement layer (baobao/enhance.py) -/

theorem stripTagsF_no_lt : ∀ (fuel : ℕ) (s : Str), '<' ∉ s → stripTagsF fuel s = s := by
  intro fuel
  induction fuel with
  | zero => intro s _; cases s <;> rfl
  | succ fuel ih =>
    intro s hs
    cases s with
    | nil => rfl
    | cons c r =>
      have hc : c ≠ '<' := fun he => hs (he ▸ List.mem_cons_self c r)
      have hr : '<' ∉ r := fun hm => hs (List.mem_cons_of_mem c hm)
      simp [stripTagsF, hc, ih r hr]

theorem stripTags_no_lt {s : Str} (h : '<' ∉ s) : stripTags s = s :=
  stripTagsF_no_lt s.length s h

theorem fontMatchHere_no_lt {s : Str} (h : '<' ∉ s) : fontMatchHere s = none := by
  unfold fontMatchHere
  rw [if_neg]
  intro hpre
  rw [List.isPrefixOf_iff_prefix] at hpre
  rcases hpre with ⟨t, ht⟩
  apply h
  rw [← ht]
  exact List.mem_append.mpr (Or.inl (by decide))

theorem findFontHighlightF_no_lt :
    ∀ (fuel : ℕ) (s : Str), '<' ∉ s → findFontHighlightF fuel s = none := by
  intro fuel
  induction fuel with
  | zero => intro s _; cases s <;> rfl
  | succ fuel ih =>
    intro s hs
    cases s with
    | nil => rfl
    | cons c r =>
      have hr : '<' ∉ r := fun hm => hs (List.mem_cons_of_mem c hm)
      simp [findFontHighlightF, fontMatchHere_no_lt hs, ih r hr]

theorem findFontHighlight_no_lt {s : Str} (h : '<' ∉ s) : findFontHighlight s = none :=
  findFontHighlightF_no_lt s.length s h

theorem cacheLookup_insert (cache : Cache) (key : OutputFormat × Str) (v : Interp) :
    cacheLookup (cacheInsert cache key v) key = some v := by
  simp [cacheLookup, cacheInsert, List.find?]

/-- C10: for every input string whose markup-stripped, whitespace-stripped
form is empty, `interpret_phrase` returns the empty interpretation (empty
romanization, empty translation, empty per-unit breakdown) and the cache
unchanged, for EVERY cache and every pair of external clients — so neither
the cache nor the external model is ever consulted. -/
theorem interpret_phrase_empty (fmt : OutputFormat)
    (clientFull : Str → Option PhraseInterpretation)
    (clientLearn : Str → Option LearningLyricLine)
    (cache : Cache) (t : Str) (h : pyStrip (stripTags t) = []) :
    interpret_phrase fmt clientFull clientLearn cache t =
      ({ pinyin := [], english := [], word_details := [] }, cache) := by
  unfold interpret_phrase
  simp [h]

/-- Witness for C10: the input `"<b> </b> "` cleans to the empty string. -/
theorem interpret_phrase_empty_witness :
    pyStrip (stripTags "<b> </b> ".data) = [] ∧
    interpret_phrase .FULL (fun _ => none) (fun _ => none) [] "<b> </b> ".data =
      ({ pinyin := [], english := [], word_details := [] }, []) :=
  ⟨by decide, interpret_phrase_empty .FULL (fun _ => none) (fun _ => none) []
    "<b> </b> ".data (by decide)⟩

/-- C8: for a cleaned text span (tag-free, stripped, non-empty) with no
cached interpretation, if the external full/emoji call fails for any reason
(`clientFull` returns `none`), `interpret_phrase` returns — rather than
propagating the failure — the degraded interpretation whose romanization is
the cleaned text unchanged, whose translation is `"?"`, and whose per-unit
breakdown has exactly one `"?"/"?"` entry per non-whitespace character; the
merge layer then emits for such an entry the line set
`[text, text, "(?)"]`, so the failure never reaches the caller of
`enhance_srt`'s merge loop. -/
theorem interpret_phrase_failure (fmt : OutputFormat)
    (clientFull : Str → Option PhraseInterpretation)
    (clientLearn : Str → Option LearningLyricLine)
    (cache : Cache) (ct : Str) (entryIndex : ℤ) (timestamp : Str)
    (hlt : '<' ∉ ct) (hstrip : pyStrip ct = ct) (hne : ct ≠ [])
    (hcache : cacheLookup cache (fmt, ct) = none)
    (hfail : clientFull ct = none) (hfmt : fmt ≠ .LEARN) :
    (interpret_phrase fmt clientFull clientLearn cache ct).1 = fallbackInterp ct ∧
    (fallbackInterp ct).pinyin = ct ∧
    (fallbackInterp ct).english = "?".data ∧
    (fallbackInterp ct).word_details =
      (ct.filter (fun c => pyStrip [c] ≠ [])).map
        (fun c => { char := [c], pinyin := "?".data, english := "?".data }) ∧
    (buildEnhancedEntry fmt clientFull clientLearn cache
      { index := entryIndex, timestamp := timestamp, text := ct }).1.lines =
      [ct, ct, ['(', '?', ')']] := by
  have hclean : pyStrip (stripTags ct) = ct := by rw [stripTags_no_lt hlt, hstrip]
  have hinterp : interpret_phrase fmt clientFull clientLearn cache ct =
      (fallbackInterp ct, cacheInsert cache (fmt, ct) (fallbackInterp ct)) := by
    unfold interpret_phrase
    rw [hclean]
    simp [hne, hcache, hfmt, hfail]
  have hinterp2 : interpret_phrase fmt clientFull clientLearn
      (cacheInsert cache (fmt, ct) (fallbackInterp ct)) ct =
      (fallbackInterp ct, cacheInsert cache (fmt, ct) (fallbackInterp ct)) := by
    unfold interpret_phrase
    rw [hclean]
    simp [hne, cacheLookup_insert]
  have hline : format_subtitle_line fmt clientFull clientLearn cache ct =
      ({ chinese := ct, pinyin := (fallbackInterp ct).pinyin,
         pinyin_plain := (fallbackInterp ct).pinyin,
         english := (fallbackInterp ct).english,
         word_details := (fallbackInterp ct).word_details },
       cacheInsert cache (fmt, ct) (fallbackInterp ct)) := by
    simp only [format_subtitle_line]
    rw [hclean, findFontHighlight_no_lt hlt, hinterp]
  have hbuild : (buildEnhancedEntry fmt clientFull clientLearn cache
      { index := entryIndex, timestamp := timestamp, text := ct }).1.lines =
      [ct, ct, ['(', '?', ')']] := by
    simp only [buildEnhancedEntry]
    rw [hclean, hline, hinterp2]
    simp [hfmt, fallbackInterp]
  exact ⟨by rw [hinterp], rfl, rfl, rfl, hbuild⟩

/-- Witness for C8 at the concrete span `"測試"` with a failing collaborator
and an empty cache, in `full` mode. -/
theorem interpret_phrase_failure_witness :
    ('<' ∉ "測試".data ∧ pyStrip "測試".data = "測試".data ∧ "測試".data ≠ [] ∧
      cacheLookup [] (OutputFormat.FULL, "測試".data) = none ∧
      (fun (_ : Str) => (none : Option PhraseInterpretation)) "測試".data = none ∧
      OutputFormat.FULL ≠ OutputFormat.LEARN) ∧
    ((interpret_phrase .FULL (fun _ => none) (fun _ => none) [] "測試".data).1 =
        fallbackInterp "測試".data ∧
      (fallbackInterp "測試".data).pinyin = "測試".data ∧
      (fallbackInterp "測試".data).english = "?".data ∧
      (fallbackInterp "測試".data).word_details =
        (("測試".data).filter (fun c => pyStrip [c] ≠ [])).map
          (fun c => { char := [c], pinyin := "?".data, english := "?".data }) ∧
      (buildEnhancedEntry .FULL (fun _ => none) (fun _ => none) []
        { index := 1, timestamp := [], text := "測試".data }).1.lines =
        ["測試".data, "測試".data, ['(', '?', ')']]) :=
  ⟨⟨by decide, by decide, by decide, rfl, rfl, by decide⟩,
    interpret_phrase_failure .FULL (fun _ => none) (fun _ => none) [] "測試".data 1 []
      (by decide) (by decide) (by decide) rfl rfl (by decide)⟩

/-! ### C4: block round trip — split machinery -/

theorem splitSeqF_fuel {sep : Str} :
    ∀ (fuel fuel2 : ℕ) (s : Str), s.length ≤ fuel → s.length ≤ fuel2 →
      splitSeqF sep fuel s = splitSeqF sep fuel2 s := by
  intro fuel
  induction fuel with
  | zero =>
    intro fuel2 s hs _
    have : s = [] := List.length_eq_zero.mp (by omega)
    subst this
    cases fuel2 <;> rfl
  | succ fuel ih =>
    intro fuel2 s hs hs2
    cases s with
    | nil => cases fuel2 <;> rfl
    | cons c cs =>
      cases fuel2 with
      | zero => simp at hs2
      | succ fuel2 =>
        simp only [splitSeqF]
        by_cases hpre : sep ≠ [] ∧ sep.isPrefixOf (c :: cs) = true
        · have hsl : 1 ≤ sep.length := List.length_pos.mpr hpre.1
          rw [if_pos hpre, if_pos hpre,
            ih fuel2 ((c :: cs).drop sep.length) (by simp at hs ⊢; omega)
              (by simp at hs2 ⊢; omega)]
        · rw [if_neg hpre, if_neg hpre, ih fuel2 cs (by simp at hs ⊢; omega)
            (by simp at hs2 ⊢; omega)]

theorem splitSeq_cons_step {sep : Str} {c : Char} {cs : Str}
    (hpre : ¬ sep.isPrefixOf (c :: cs) = true) :
    splitSeq sep (c :: cs) =
      match splitSeq sep cs with
      | [] => [[c]]
      | y :: ys => (c :: y) :: ys := by
  unfold splitSeq
  simp only [List.length_cons, splitSeqF]
  rw [if_neg (fun hand => hpre hand.2)]

theorem splitSeq_sep_step {sep r : Str} (hsep : sep ≠ []) :
    splitSeq sep (sep ++ r) = [] :: splitSeq sep r := by
  cases hs : sep with
  | nil => exact absurd hs hsep
  | cons s0 stail =>
    rw [← hs]
    show splitSeqF sep (sep ++ r).length (sep ++ r) = _
    have hlen : (sep ++ r).length = ((sep ++ r).length - 1) + 1 := by
      rw [hs]
      simp
    rw [hlen]
    cases hsr : sep ++ r with
    | nil =>
      exfalso
      rw [hs] at hsr
      simp at hsr
    | cons c cs =>
      simp only [splitSeqF]
      rw [if_pos ⟨hsep, by rw [← hsr]; exact List.isPrefixOf_iff_prefix.mpr ⟨r, rfl⟩⟩]
      congr 1
      rw [← hsr]
      rw [show (sep ++ r).drop sep.length = r from by simp]
      apply splitSeqF_fuel
      · simp only [hs, List.length_append, List.length_cons]
        omega
      · exact le_refl _

theorem splitSeq_eq_cons {sep : Str} (hsep : sep ≠ []) :
    ∀ (a r : Str),
      (∀ i, i < a.length → ¬ sep.isPrefixOf (a.drop i ++ (sep ++ r)) = true) →
      splitSeq sep (a ++ sep ++ r) = a :: splitSeq sep r := by
  intro a
  induction a with
  | nil =>
    intro r _
    simpa using splitSeq_sep_step hsep (r := r)
  | cons c a2 ih =>
    intro r hno
    have h0 : ¬ sep.isPrefixOf ((c :: a2) ++ sep ++ r) = true := by
      have := hno 0 (by simp)
      simpa using this
    have hrest := ih r (fun i hi => by
      have := hno (i + 1) (by simp; omega)
      simpa using this)
    have hstep := @splitSeq_cons_step sep c (a2 ++ sep ++ r)
      (by simpa using h0)
    simp only [List.cons_append, List.append_assoc] at hstep ⊢
    rw [hstep]
    rw [show a2 ++ (sep ++ r) = a2 ++ sep ++ r from by simp, hrest]

theorem splitSeq_no {sep : Str} :
    ∀ s : Str, (∀ i, ¬ sep.isPrefixOf (s.drop i) = true) →
      splitSeq sep s = [s] := by
  intro s
  induction s with
  | nil => intro _; rfl
  | cons c cs ih =>
    intro hno
    have h0 : ¬ sep.isPrefixOf (c :: cs) = true := by simpa using hno 0
    rw [splitSeq_cons_step h0, ih (fun i => by simpa using hno (i + 1))]

theorem noNlNl_tail {c : Char} {cs : Str} (h : noNlNl (c :: cs) = true) :
    noNlNl cs = true := by
  cases cs with
  | nil => rfl
  | cons b t =>
    simp only [noNlNl, Bool.and_eq_true] at h
    exact h.2

theorem noNlNl_pair {c b : Char} {t : Str} (h : noNlNl (c :: b :: t) = true) :
    ¬(c = '\n' ∧ b = '\n') := by
  simp only [noNlNl, Bool.and_eq_true, Bool.not_eq_true'] at h
  intro hcon
  rw [hcon.1, hcon.2] at h
  simp at h

theorem not_nlnl_prefix_within :
    ∀ (C : Str), noNlNl C = true → ∀ i, ¬ nlnl.isPrefixOf (C.drop i) = true := by
  intro C
  induction C with
  | nil => intro _ i; simp [nlnl, List.isPrefixOf]
  | cons c cs ih =>
    intro h i
    cases i with
    | zero =>
      cases cs with
      | nil => simp [nlnl, List.isPrefixOf]
      | cons b t =>
        simp only [List.drop_zero, nlnl, List.isPrefixOf, Bool.and_eq_true, beq_iff_eq]
        intro hcon
        exact noNlNl_pair h ⟨hcon.1.symm, hcon.2.1.symm⟩
    | succ i2 =>
      simpa using ih (noNlNl_tail h) i2

theorem not_nlnl_prefix_boundary :
    ∀ (C z : Str), noNlNl C = true → (∀ c, C.getLast? = some c → c ≠ '\n') →
      ∀ i, i < C.length → ¬ nlnl.isPrefixOf (C.drop i ++ z) = true := by
  intro C
  induction C with
  | nil => intro z _ _ i hi; simp at hi
  | cons c cs ih =>
    intro z h hlast i hi
    cases i with
    | zero =>
      cases cs with
      | nil =>
        have hc : c ≠ '\n' := hlast c rfl
        simp only [List.drop_zero, List.cons_append, nlnl, List.isPrefixOf,
          Bool.and_eq_true, beq_iff_eq]
        intro hcon
        exact hc hcon.1.symm
      | cons b t =>
        simp only [List.drop_zero, List.cons_append, nlnl, List.isPrefixOf,
          Bool.and_eq_true, beq_iff_eq]
        intro hcon
        exact noNlNl_pair h ⟨hcon.1.symm, hcon.2.1.symm⟩
    | succ i2 =>
      cases cs with
      | nil => simp at hi
      | cons b t =>
        have hlast2 : ∀ x, (b :: t).getLast? = some x → x ≠ '\n' := by
          intro x hx
          exact hlast x (by rw [List.getLast?_cons_cons]; exact hx)
        simpa using ih z (noNlNl_tail h) hlast2 i2 (by simpa using hi)

theorem dropWhile_append_all {p : Char → Bool} {l m : Str}
    (h : ∀ c ∈ l, p c = true) : (l ++ m).dropWhile p = m.dropWhile p := by
  induction l with
  | nil => rfl
  | cons c cs ih =>
    simp only [List.cons_append, List.dropWhile_cons, h c (List.mem_cons_self c cs),
      if_true]
    exact ih (fun x hx => h x (List.mem_cons_of_mem c hx))

theorem dropWhile_id_of_head {p : Char → Bool} {l : Str}
    (h : ∀ c, l.head? = some c → p c = false) : l.dropWhile p = l := by
  cases l with
  | nil => rfl
  | cons c cs => simp [List.dropWhile_cons, h c rfl]

theorem pyStrip_id_of_ends {s : Str}
    (hh : ∀ c, s.head? = some c → pyWs c = false)
    (hl : ∀ c, s.getLast? = some c → pyWs c = false) : pyStrip s = s := by
  unfold pyStrip stripBy lstripBy rstripBy
  rw [dropWhile_id_of_head hh, dropWhile_id_of_head, List.reverse_reverse]
  intro c hc
  rw [List.head?_reverse] at hc
  exact hl c hc

theorem pyStrip_append_ws {a b : Str} (ha : a ≠ [])
    (hh : ∀ c, a.head? = some c → pyWs c = false)
    (hl : ∀ c, a.getLast? = some c → pyWs c = false)
    (hb : ∀ c ∈ b, pyWs c = true) : pyStrip (a ++ b) = a := by
  unfold pyStrip stripBy lstripBy rstripBy
  have h1 : (a ++ b).dropWhile pyWs = a ++ b := by
    apply dropWhile_id_of_head
    intro c hc
    cases a with
    | nil => exact absurd rfl ha
    | cons x xs =>
      simp only [List.cons_append, List.head?_cons, Option.some.injEq] at hc
      exact hc ▸ hh x rfl
  rw [h1, List.reverse_append,
    dropWhile_append_all (fun c hc => hb c (List.mem_reverse.mp hc)),
    dropWhile_id_of_head (fun c hc => hl c (by rwa [List.head?_reverse] at hc)),
    List.reverse_reverse]

theorem getLast?_append_of_ne {a b : Str} (hb : b ≠ []) :
    (a ++ b).getLast? = b.getLast? := by
  rw [List.getLast?_append]
  cases hbl : b.getLast? with
  | none =>
    exfalso
    cases b with
    | nil => exact hb rfl
    | cons x xs => simp [List.getLast?_eq_getLast] at hbl
  | some c => rfl

theorem head?_append_of_ne {a b : Str} (ha : a ≠ []) :
    (a ++ b).head? = a.head? := by
  rw [List.head?_append]
  cases a with
  | nil => exact absurd rfl ha
  | cons x xs => rfl

theorem intercalate_singleton (s : Str) (x : Str) :
    List.intercalate s [x] = x := by
  simp [List.intercalate, List.intersperse]

theorem intercalate_cons_cons (s x y : Str) (rest : List Str) :
    List.intercalate s (x :: y :: rest) = x ++ s ++ List.intercalate s (y :: rest) := by
  simp only [List.intercalate, List.intersperse_cons_cons, List.flatten_cons]
  simp [List.append_assoc]

theorem renderBlock_eq (b : SrtBlock) : renderBlock b = blockCore b ++ nlnl := by
  show natDigits b.index ++ '\n' ::
      (format_srt_time b.start ++ ' ' :: '-' :: '-' :: '>' :: ' ' ::
        (format_srt_time b.stop ++ '\n' :: (b.text ++ ['\n', '\n']))) = _
  simp only [blockCore, nlnl, arrowSep]
  simp [List.append_assoc]

theorem format_srt_time_chars {s : ℚ} (h : 0 ≤ s) :
    ∀ c ∈ format_srt_time s, isDigitCh c = true ∨ c = ':' ∨ c = ',' := by
  rw [format_srt_time_eq s h]
  intro c hc
  have hdig : ∀ (k n : ℕ), c ∈ padZeros k (natDigits n) → isDigitCh c = true := by
    intro k n hm
    have hall : ∀ x ∈ padZeros k (natDigits n), isDigitCh x = true := by
      simpa [List.all_eq_true] using padZeros_all (k := k) (natDigits_all n)
    exact hall c hm
  rcases List.mem_append.mp hc with hc | hc
  · exact Or.inl (hdig _ _ hc)
  rcases List.mem_cons.mp hc with rfl | hc
  · exact Or.inr (Or.inl rfl)
  rcases List.mem_append.mp hc with hc | hc
  · exact Or.inl (hdig _ _ hc)
  rcases List.mem_cons.mp hc with rfl | hc
  · exact Or.inr (Or.inl rfl)
  rcases List.mem_append.mp hc with hc | hc
  · exact Or.inl (hdig _ _ hc)
  rcases List.mem_cons.mp hc with rfl | hc
  · exact Or.inr (Or.inr rfl)
  · exact Or.inl (hdig _ _ hc)

theorem format_srt_time_no_nl {s : ℚ} (h : 0 ≤ s) :
    ∀ c ∈ format_srt_time s, c ≠ '\n' := by
  intro c hc
  rcases format_srt_time_chars h c hc with hd | rfl | rfl
  · exact ne_of_digit hd (by decide)
  · decide
  · decide

theorem format_srt_time_no_sp {s : ℚ} (h : 0 ≤ s) :
    ∀ c ∈ format_srt_time s, c ≠ ' ' := by
  intro c hc
  rcases format_srt_time_chars h c hc with hd | rfl | rfl
  · exact ne_of_digit hd (by decide)
  · decide
  · decide

theorem pyInt?_natDigits (n : ℕ) : pyInt? (natDigits n) = some (n : ℤ) := by
  have : natDigits n = padZeros 0 (natDigits n) := by simp [padZeros]
  rw [this]
  exact pyInt?_pad 0 n

theorem splitCh_intercalate {xlines : List Str} (hne : xlines ≠ [])
    (hx : ∀ x ∈ xlines, ∀ c ∈ x, c ≠ '\n') :
    splitCh '\n' (List.intercalate ['\n'] xlines) = xlines := by
  induction xlines with
  | nil => exact absurd rfl hne
  | cons x rest ih =>
    cases rest with
    | nil =>
      rw [intercalate_singleton]
      exact splitBy_no (fun c hc => by
        simpa using hx x (List.mem_cons_self x []) c hc)
    | cons y rest2 =>
      rw [intercalate_cons_cons]
      have hx1 : ∀ c ∈ x, (decide (c = '\n')) = false := fun c hc => by
        simpa using hx x (List.mem_cons_self x _) c hc
      rw [show x ++ ['\n'] ++ List.intercalate ['\n'] (y :: rest2) =
        x ++ '\n' :: List.intercalate ['\n'] (y :: rest2) from by simp]
      unfold splitCh
      rw [splitBy_append_cons hx1 (by simp)]
      have := ih (by simp) (fun z hz c hc => hx z (List.mem_cons_of_mem x hz) c hc)
      unfold splitCh at this
      rw [this]

theorem parse_format_msAligned {q : ℚ} (h0 : 0 ≤ q) (hn : ∃ n : ℤ, q = (n : ℚ) / 1000) :
    parse_srt_time (format_srt_time q) = some q := by
  obtain ⟨n, rfl⟩ := hn
  rw [parse_format_eq _ h0]
  congr 1
  rw [show (1000 : ℚ) * ((n : ℚ) / 1000) = (n : ℚ) from by ring, Int.floor_intCast]

theorem arrowSep_chars : arrowSep = [' ', '-', '-', '>', ' '] := rfl

theorem splitSeq_arrow (F1 F2 : Str) (h1 : ∀ c ∈ F1, c ≠ ' ') (h2 : ∀ c ∈ F2, c ≠ ' ') :
    splitSeq arrowSep (F1 ++ arrowSep ++ F2) = [F1, F2] := by
  rw [splitSeq_eq_cons (by rw [arrowSep_chars]; decide) F1 F2 ?hside]
  case hside =>
    intro k hk hcon
    have hd : F1.drop k ≠ [] := by
      rw [ne_eq, List.drop_eq_nil_iff]
      omega
    cases he : F1.drop k with
    | nil => exact hd he
    | cons c t =>
      have hc : c ∈ F1 := List.drop_subset k F1 (he ▸ List.mem_cons_self c t)
      rw [he, arrowSep_chars] at hcon
      simp only [List.cons_append, List.isPrefixOf, Bool.and_eq_true, beq_iff_eq] at hcon
      exact h1 c hc hcon.1.symm
  rw [splitSeq_no F2 ?hno]
  case hno =>
    intro k hcon
    cases he : F2.drop k with
    | nil =>
      rw [he, arrowSep_chars] at hcon
      simp [List.isPrefixOf] at hcon
    | cons c t =>
      have hc : c ∈ F2 := List.drop_subset k F2 (he ▸ List.mem_cons_self c t)
      rw [he, arrowSep_chars] at hcon
      simp only [List.isPrefixOf, Bool.and_eq_true, beq_iff_eq] at hcon
      exact h2 c hc hcon.1.symm

theorem natDigits_head_digit (n : ℕ) :
    ∀ c, (natDigits n).head? = some c → isDigitCh c = true := by
  intro c hc
  have hm : c ∈ natDigits n := List.mem_of_mem_head? (by rw [hc]; rfl)
  have hall : ∀ x ∈ natDigits n, isDigitCh x = true := by
    simpa [List.all_eq_true] using natDigits_all n
  exact hall c hm

theorem parseBlock_good (i : ℕ) (s1 s2 : ℚ) (h1 : 0 ≤ s1) (h2 : 0 ≤ s2)
    (xlines : List Str) (hne : xlines ≠ [])
    (hx : ∀ x ∈ xlines, ∀ c ∈ x, c ≠ '\n')
    (hbody : List.intercalate ['\n'] xlines ≠ [])
    (hlast : ∀ c, (List.intercalate ['\n'] xlines).getLast? = some c → pyWs c = false) :
    parseBlock (natDigits i ++ '\n' ::
      ((format_srt_time s1 ++ arrowSep ++ format_srt_time s2) ++ '\n' ::
        List.intercalate ['\n'] xlines)) =
      some { index := (i : ℤ),
             start := ((⌊1000 * s1⌋ : ℤ) : ℚ) / 1000,
             stop := ((⌊1000 * s2⌋ : ℤ) : ℚ) / 1000,
             text := pyStrip (stripTags (List.intercalate [' '] xlines)),
             raw_text := List.intercalate [' '] xlines } := by
  set T := format_srt_time s1 ++ arrowSep ++ format_srt_time s2 with hT
  set body := List.intercalate ['\n'] xlines with hB
  set C := natDigits i ++ '\n' :: (T ++ '\n' :: body) with hC
  have hTnl : ∀ c ∈ T, c ≠ '\n' := by
    intro c hc
    rw [hT] at hc
    rcases List.mem_append.mp hc with hc | hc
    · rcases List.mem_append.mp hc with hc | hc
      · exact format_srt_time_no_nl h1 c hc
      · rw [arrowSep_chars] at hc
        fin_cases hc <;> decide
    · exact format_srt_time_no_nl h2 c hc
  have hCne : C ≠ [] := by
    rw [hC]
    intro hcon
    rcases List.append_eq_nil.mp hcon with ⟨_, hcon2⟩
    cases hcon2
  have hCheads : ∀ c, C.head? = some c → pyWs c = false := by
    intro c hc
    rw [hC, head?_append_of_ne (natDigits_ne_nil i)] at hc
    exact pyWs_of_digit (natDigits_head_digit i c hc)
  have hClast : ∀ c, C.getLast? = some c → pyWs c = false := by
    intro c hc
    rw [hC, show natDigits i ++ '\n' :: (T ++ '\n' :: body) =
      (natDigits i ++ '\n' :: (T ++ ['\n'])) ++ body from by simp] at hc
    rw [getLast?_append_of_ne hbody] at hc
    exact hlast c hc
  have hstrip : pyStrip C = C := pyStrip_id_of_ends hCheads hClast
  have hdigits : ∀ c ∈ natDigits i, (decide (c = '\n')) = false := by
    intro c hc
    have hall : ∀ x ∈ natDigits i, isDigitCh x = true := by
      simpa [List.all_eq_true] using natDigits_all i
    simpa using ne_of_digit (hall c hc) (by decide)
  have hsplit : splitCh '\n' C = natDigits i :: T :: xlines := by
    rw [hC]
    unfold splitCh
    rw [splitBy_append_cons hdigits (by simp),
      splitBy_append_cons (fun c hc => by simpa using hTnl c hc) (by simp)]
    have hsi := splitCh_intercalate hne hx
    unfold splitCh at hsi
    rw [hB, hsi]
  cases hxl : xlines with
  | nil => exact absurd hxl hne
  | cons x0 xr =>
    unfold parseBlock
    rw [hstrip, if_neg hCne, hsplit, hxl]
    show ((match pyInt? (natDigits i) with
      | none => none
      | some index =>
        match splitSeq arrowSep T with
        | [a, b] =>
          (match parse_srt_time a, parse_srt_time b with
           | some ts, some te =>
             some { index := index, start := ts, stop := te,
                    text := pyStrip (stripTags (List.intercalate [' '] (x0 :: xr))),
                    raw_text := List.intercalate [' '] (x0 :: xr) }
           | _, _ => none)
        | _ => none : Option SRTEntry)) = _
    rw [pyInt?_natDigits, hT,
      splitSeq_arrow _ _ (format_srt_time_no_sp h1) (format_srt_time_no_sp h2)]
    show ((match parse_srt_time (format_srt_time s1),
        parse_srt_time (format_srt_time s2) with
      | some ts, some te =>
        some { index := ((i : ℕ) : ℤ), start := ts, stop := te,
               text := pyStrip (stripTags (List.intercalate [' '] (x0 :: xr))),
               raw_text := List.intercalate [' '] (x0 :: xr) }
      | _, _ => none : Option SRTEntry)) = _
    rw [parse_format_eq s1 h1, parse_format_eq s2 h2]

theorem noNlNl_cons_of {c : Char} {cs : Str} (hc : c ≠ '\n')
    (h : noNlNl cs = true) : noNlNl (c :: cs) = true := by
  cases cs with
  | nil => rfl
  | cons b t =>
    simp only [noNlNl, Bool.and_eq_true]
    refine ⟨?_, h⟩
    simp [hc]

theorem noNlNl_of_all {s : Str} (h : ∀ c ∈ s, c ≠ '\n') : noNlNl s = true := by
  induction s with
  | nil => rfl
  | cons c cs ih =>
    exact noNlNl_cons_of (h c (List.mem_cons_self c cs))
      (ih (fun x hx => h x (List.mem_cons_of_mem c hx)))

theorem noNlNl_nl_cons {X : Str} (h : noNlNl X = true)
    (hx : ∀ c, X.head? = some c → c ≠ '\n') : noNlNl ('\n' :: X) = true := by
  cases X with
  | nil => rfl
  | cons b t =>
    simp only [noNlNl, Bool.and_eq_true]
    refine ⟨?_, h⟩
    simp [hx b rfl]

theorem noNlNl_line2 {u v : Str} (hu : ∀ c ∈ u, c ≠ '\n')
    (hv : ∀ c ∈ v, c ≠ '\n') :
    noNlNl (u ++ '\n' :: v) = true := by
  induction u with
  | nil =>
    simp only [List.nil_append]
    exact noNlNl_nl_cons (noNlNl_of_all hv)
      (fun c hc => hv c (List.mem_of_mem_head? hc))
  | cons c u2 ih =>
    exact noNlNl_cons_of (hu c (List.mem_cons_self c u2))
      (ih (fun x hx => hu x (List.mem_cons_of_mem c hx)))

theorem noNlNl_append_no_nl {a b : Str} (ha : ∀ c ∈ a, c ≠ '\n')
    (hb : noNlNl b = true) : noNlNl (a ++ b) = true := by
  induction a with
  | nil => exact hb
  | cons c a2 ih =>
    exact noNlNl_cons_of (ha c (List.mem_cons_self c a2))
      (ih (fun x hx => ha x (List.mem_cons_of_mem c hx)))

theorem intercalate_ne_nil {x : Str} (hx : x ≠ []) (rest : List Str) :
    List.intercalate nlnl (x :: rest) ≠ [] := by
  cases rest with
  | nil => rw [intercalate_singleton]; exact hx
  | cons y r =>
    rw [intercalate_cons_cons]
    intro hcon
    rw [List.append_assoc] at hcon
    exact hx (List.append_eq_nil.mp hcon).1

theorem intercalate_head_prop (P : Char → Prop) {x : Str} (hx : x ≠ [])
    (rest : List Str) (hp : ∀ c, x.head? = some c → P c) :
    ∀ c, (List.intercalate nlnl (x :: rest)).head? = some c → P c := by
  cases rest with
  | nil => rw [intercalate_singleton]; exact hp
  | cons y r =>
    rw [intercalate_cons_cons, List.append_assoc, head?_append_of_ne hx]
    exact hp

theorem intercalate_last_prop (P : Char → Prop) :
    ∀ (cores : List Str), (∀ C ∈ cores, C ≠ []) →
      (∀ C ∈ cores, ∀ c, C.getLast? = some c → P c) →
      ∀ c, (List.intercalate nlnl cores).getLast? = some c → P c := by
  intro cores
  induction cores with
  | nil =>
    intro _ _ c hc
    simp [List.intercalate] at hc
  | cons x rest ih =>
    intro hne hp c hc
    cases rest with
    | nil =>
      rw [intercalate_singleton] at hc
      exact hp x (List.mem_cons_self x []) c hc
    | cons y r =>
      rw [intercalate_cons_cons, List.append_assoc,
        getLast?_append_of_ne (by
          intro hcon
          rcases List.append_eq_nil.mp hcon with ⟨_, hcon2⟩
          exact intercalate_ne_nil (hne y (by simp)) r hcon2)] at hc
      rw [getLast?_append_of_ne (intercalate_ne_nil (hne y (by simp)) r)] at hc
      exact ih (fun C hC => hne C (List.mem_cons_of_mem x hC))
        (fun C hC => hp C (List.mem_cons_of_mem x hC)) c hc

theorem splitSeq_intercalate_nlnl :
    ∀ (cores : List Str), cores ≠ [] →
      (∀ C ∈ cores, noNlNl C = true ∧ C ≠ [] ∧
        (∀ c, C.getLast? = some c → c ≠ '\n')) →
      splitSeq nlnl (List.intercalate nlnl cores) = cores := by
  intro cores
  induction cores with
  | nil => intro h; exact absurd rfl h
  | cons x rest ih =>
    intro _ hgood
    cases rest with
    | nil =>
      rw [intercalate_singleton]
      exact splitSeq_no x
        (not_nlnl_prefix_within x (hgood x (by simp)).1)
    | cons y r =>
      rw [intercalate_cons_cons,
        splitSeq_eq_cons (by decide) x (List.intercalate nlnl (y :: r))
          (fun i hi => not_nlnl_prefix_boundary x
            (nlnl ++ List.intercalate nlnl (y :: r))
            (hgood x (by simp)).1 (hgood x (by simp)).2.2 i hi),
        ih (by simp) (fun C hC => hgood C (List.mem_cons_of_mem x hC))]

theorem format_srt_time_ne_nil {s : ℚ} (h : 0 ≤ s) : format_srt_time s ≠ [] := by
  rw [format_srt_time_eq s h]
  intro hcon
  rcases List.append_eq_nil.mp hcon with ⟨_, hcon2⟩
  cases hcon2

theorem blockCore_ne_nil (b : SrtBlock) : blockCore b ≠ [] := by
  unfold blockCore
  intro hcon
  rcases List.append_eq_nil.mp hcon with ⟨_, hcon2⟩
  cases hcon2

theorem blockCore_head (b : SrtBlock) :
    ∀ c, (blockCore b).head? = some c → pyWs c = false := by
  intro c hc
  unfold blockCore at hc
  rw [head?_append_of_ne (natDigits_ne_nil b.index)] at hc
  exact pyWs_of_digit (natDigits_head_digit b.index c hc)

theorem blockCore_last (b : SrtBlock) (htne : b.text ≠ [])
    (hl : ∀ c, b.text.getLast? = some c → pyWs c = false) :
    ∀ c, (blockCore b).getLast? = some c → pyWs c = false := by
  intro c hc
  unfold blockCore at hc
  rw [show natDigits b.index ++ '\n' ::
      ((format_srt_time b.start ++ arrowSep ++ format_srt_time b.stop) ++
        '\n' :: b.text) =
      (natDigits b.index ++ '\n' ::
        ((format_srt_time b.start ++ arrowSep ++ format_srt_time b.stop) ++
          ['\n'])) ++ b.text from by simp] at hc
  rw [getLast?_append_of_ne htne] at hc
  exact hl c hc

theorem noNlNl_blockCore (b : SrtBlock) (h1 : 0 ≤ b.start) (h2 : 0 ≤ b.stop)
    (ht : ∀ c ∈ b.text, c ≠ '\n') : noNlNl (blockCore b) = true := by
  unfold blockCore
  have hTnl : ∀ c ∈ format_srt_time b.start ++ arrowSep ++ format_srt_time b.stop,
      c ≠ '\n' := by
    intro c hc
    rcases List.mem_append.mp hc with hc | hc
    · rcases List.mem_append.mp hc with hc | hc
      · exact format_srt_time_no_nl h1 c hc
      · rw [arrowSep_chars] at hc
        fin_cases hc <;> decide
    · exact format_srt_time_no_nl h2 c hc
  apply noNlNl_append_no_nl
  · intro c hc
    intro he
    have hd := (by simpa [List.all_eq_true] using natDigits_all b.index : 
      ∀ x ∈ natDigits b.index, isDigitCh x = true) c hc
    rw [he] at hd
    exact absurd hd (by decide)
  · apply noNlNl_nl_cons
    · exact noNlNl_line2 hTnl ht
    · intro c hc
      have hane : format_srt_time b.start ++ arrowSep ≠ [] := by
        intro hcon
        rcases List.append_eq_nil.mp hcon with ⟨hcon1, _⟩
        exact format_srt_time_ne_nil h1 hcon1
      have htne2 : format_srt_time b.start ++ arrowSep ++ format_srt_time b.stop ≠ [] := by
        intro hcon
        rcases List.append_eq_nil.mp hcon with ⟨hcon1, _⟩
        exact hane hcon1
      rw [head?_append_of_ne htne2, head?_append_of_ne hane,
        head?_append_of_ne (format_srt_time_ne_nil h1)] at hc
      exact hTnl c (List.mem_append_left _
        (List.mem_append_left _ (List.mem_of_mem_head? hc)))

theorem parseBlock_core (b : SrtBlock) (hb : goodBlock b) :
    parseBlock (blockCore b) = some (entryOfBlock b) := by
  obtain ⟨htne, hnl, hlt, hhead, hlast, ⟨hs1, n1, he1⟩, ⟨hs2, n2, he2⟩⟩ := hb
  have hg := parseBlock_good b.index b.start b.stop hs1 hs2 [b.text]
    (by simp)
    (by
      intro x hx c hc
      rw [List.mem_singleton.mp hx] at hc
      exact hnl c hc)
    (by rw [intercalate_singleton]; exact htne)
    (by rw [intercalate_singleton]; exact hlast)
  rw [intercalate_singleton, intercalate_singleton] at hg
  unfold blockCore
  rw [hg]
  unfold entryOfBlock
  congr 1
  have hfloor1 : ((⌊1000 * b.start⌋ : ℤ) : ℚ) / 1000 = b.start := by
    rw [he1, show (1000 : ℚ) * ((n1 : ℚ) / 1000) = (n1 : ℚ) from by ring,
      Int.floor_intCast]
  have hfloor2 : ((⌊1000 * b.stop⌋ : ℤ) : ℚ) / 1000 = b.stop := by
    rw [he2, show (1000 : ℚ) * ((n2 : ℚ) / 1000) = (n2 : ℚ) from by ring,
      Int.floor_intCast]
  have htext : pyStrip (stripTags b.text) = b.text := by
    rw [stripTags_no_lt (by
      intro hmem
      exact hlt '<' hmem rfl)]
    exact pyStrip_id_of_ends (fun c hc => hhead c hc) (fun c hc => hlast c hc)
  rw [hfloor1, hfloor2, htext]

theorem renderSrt_eq : ∀ {bs : List SrtBlock}, bs ≠ [] →
    renderSrt bs = List.intercalate nlnl (bs.map blockCore) ++ nlnl := by
  intro bs
  induction bs with
  | nil => intro h; exact absurd rfl h
  | cons b rest ih =>
    intro _
    cases rest with
    | nil =>
      show (([b].map renderBlock).flatten : Str) = _
      simp [renderBlock_eq, intercalate_singleton]
    | cons b2 r =>
      show ((renderBlock b :: (b2 :: r).map renderBlock).flatten : Str) = _
      rw [List.flatten_cons]
      have hrest : ((b2 :: r).map renderBlock).flatten =
          List.intercalate nlnl ((b2 :: r).map blockCore) ++ nlnl := ih (by simp)
      rw [hrest, renderBlock_eq]
      simp only [List.map_cons]
      rw [intercalate_cons_cons]
      simp [List.append_assoc]

theorem filterMap_parseBlock_cores {bs : List SrtBlock}
    (h : ∀ b ∈ bs, goodBlock b) :
    (bs.map blockCore).filterMap parseBlock = bs.map entryOfBlock := by
  induction bs with
  | nil => rfl
  | cons b rest ih =>
    rw [List.map_cons, List.map_cons,
      List.filterMap_cons_some
        (parseBlock_core b (h b (List.mem_cons_self b rest))),
      ih (fun x hx => h x (List.mem_cons_of_mem b hx))]

theorem parse_good_blocks {bs : List SrtBlock} (hne : bs ≠ [])
    (h : ∀ b ∈ bs, goodBlock b) :
    parse_srt (renderSrt bs) = bs.map entryOfBlock := by
  rw [renderSrt_eq hne]
  unfold parse_srt
  have hcores : ∀ C ∈ bs.map blockCore, noNlNl C = true ∧ C ≠ [] ∧
      (∀ c, C.getLast? = some c → c ≠ '\n') := by
    intro C hC
    obtain ⟨b, hb, rfl⟩ := List.mem_map.mp hC
    obtain ⟨htne, hnl, _, _, hl, ⟨hs1, _⟩, ⟨hs2, _⟩⟩ := h b hb
    refine ⟨noNlNl_blockCore b hs1 hs2 hnl, blockCore_ne_nil b, ?_⟩
    intro c hc he
    have hws := blockCore_last b htne hl c hc
    rw [he] at hws
    simp [pyWs] at hws
  cases hbs : bs with
  | nil => exact absurd hbs hne
  | cons b0 rest =>
    rw [hbs] at hcores h
    have hstrip : pyStrip (List.intercalate nlnl ((b0 :: rest).map blockCore)
        ++ nlnl) = List.intercalate nlnl ((b0 :: rest).map blockCore) := by
      rw [List.map_cons]
      apply pyStrip_append_ws
      · exact intercalate_ne_nil (blockCore_ne_nil b0) _
      · exact intercalate_head_prop _ (blockCore_ne_nil b0) _
          (blockCore_head b0)
      · apply intercalate_last_prop
        · intro C hC
          exact ((hcores C (by simp only [List.map_cons]; exact hC)).2).1
        · intro C hC c hc
          obtain ⟨b, hb, rfl⟩ := List.mem_map.mp
            (show C ∈ List.map blockCore (b0 :: rest) from by
              simp only [List.map_cons]; exact hC)
          obtain ⟨htne, _, _, _, hl, _, _⟩ := h b hb
          exact blockCore_last b htne hl c hc
      · intro c hc
        have hcn : c = '\n' := by
          rw [show (nlnl : Str) = ['\n', '\n'] from rfl] at hc
          simpa using hc
        rw [hcn]
        decide
    rw [hstrip, splitSeq_intercalate_nlnl _ (by simp) hcores,
      filterMap_parseBlock_cores h]

theorem write_srt_simple_aux_mem :
    ∀ (i : ℕ) (segs : List LyricSegment) (b : SrtBlock),
      b ∈ write_srt_simple_aux i segs →
      ∃ seg ∈ segs, b.start = seg.start ∧ b.stop = seg.stop ∧
        b.text = seg.text := by
  intro i segs
  induction segs generalizing i with
  | nil =>
    intro b hb
    rw [write_srt_simple_aux] at hb
    cases hb
  | cons s rest ih =>
    intro b hb
    rw [write_srt_simple_aux] at hb
    rcases List.mem_cons.mp hb with rfl | hb2
    · exact ⟨s, List.mem_cons_self s rest, rfl, rfl, rfl⟩
    · obtain ⟨seg, hseg, hrest⟩ := ih (i + 1) b hb2
      exact ⟨seg, List.mem_cons_of_mem s hseg, hrest⟩

/-- **C4.** (Amended.) For segments whose text is block-format safe in the
strong sense of `blockSafe` — non-empty single-line tag-free text with
non-whitespace ends and millisecond-aligned non-negative times — parsing the
serialized output of the simple writer recovers every entry's index, start,
end and plain text, in order. The original claim, which only excluded
embedded blank lines, is refuted by `srt_round_trip_cex`: a single embedded
newline already breaks the round trip because the parser joins text lines
with a space. -/
theorem srt_round_trip (segments : List LyricSegment)
    (hsafe : ∀ seg ∈ segments, blockSafe seg) :
    parse_srt (renderSrt (write_srt_simple segments)) =
      (write_srt_simple segments).map entryOfBlock := by
  cases hseg : segments with
  | nil => rfl
  | cons s rest =>
    rw [hseg] at hsafe
    apply parse_good_blocks
    · show write_srt_simple_aux 1 (s :: rest) ≠ []
      rw [write_srt_simple_aux]
      simp
    · intro b hb
      obtain ⟨seg, hmem, h1, h2, h3⟩ :=
        write_srt_simple_aux_mem 1 (s :: rest) b hb
      show goodBlock b
      unfold goodBlock
      rw [h1, h2, h3]
      exact hsafe seg hmem

/-- **C4 counterexample.** The claim restricts only to texts with no embedded
blank lines. `nlTextSegment`'s text `"a\nb"` has a newline but no blank line
(`noNlNl` holds), yet the round trip returns plain text `"a b"`: the parser
joins the text lines of a block with a single space, so the original text is
not recovered. -/
theorem srt_round_trip_cex :
    noNlNl nlTextSegment.text = true ∧
    nlTextSegment.text = ['a', '\n', 'b'] ∧
    (parse_srt (renderSrt (write_srt_simple [nlTextSegment]))).map SRTEntry.text
      = [['a', ' ', 'b']] := by
  refine ⟨by decide, rfl, ?_⟩
  have hf1 : format_srt_time (1 : ℚ) = "00:00:01,000".data := by
    rw [format_srt_time_eq 1 (by norm_num),
      show (1000 : ℚ) * 1 = ((1000 : ℤ) : ℚ) from by norm_num,
      Int.floor_intCast]
    rfl
  have hf2 : format_srt_time (2 : ℚ) = "00:00:02,000".data := by
    rw [format_srt_time_eq 2 (by norm_num),
      show (1000 : ℚ) * 2 = ((2000 : ℤ) : ℚ) from by norm_num,
      Int.floor_intCast]
    rfl
  have hb : write_srt_simple [nlTextSegment] =
      [⟨1, (1 : ℚ), (2 : ℚ), ['a', '\n', 'b']⟩] := rfl
  rw [hb]
  have hr : renderSrt [(⟨1, (1 : ℚ), (2 : ℚ), ['a', '\n', 'b']⟩ : SrtBlock)] =
      natDigits 1 ++ '\n' ::
        (format_srt_time 1 ++ ' ' :: '-' :: '-' :: '>' :: ' ' ::
          (format_srt_time 2 ++ '\n' :: (['a', '\n', 'b'] ++ ['\n', '\n']))) := by
    show (renderBlock ⟨1, (1 : ℚ), (2 : ℚ), ['a', '\n', 'b']⟩ ++ [] : Str) = _
    rw [List.append_nil]
    rfl
  rw [hr, hf1, hf2]
  decide

theorem rtSeg_blockSafe : ∀ seg ∈ [rtSeg], blockSafe seg := by
  intro seg hseg
  have hs : seg = rtSeg := by simpa using hseg
  rw [hs]
  refine ⟨by decide, by decide, by decide, ?_, ?_, ⟨le_refl 0, 0, by simp [rtSeg]⟩,
    ⟨le_refl 0, 0, by simp [rtSeg]⟩⟩
  · intro c hc
    rw [show rtSeg.text.head? = some 'h' from rfl] at hc
    rw [← Option.some.inj hc]
    decide
  · intro c hc
    rw [show rtSeg.text.getLast? = some 'i' from rfl] at hc
    rw [← Option.some.inj hc]
    decide

theorem srt_round_trip_witness :
    (∀ seg ∈ [rtSeg], blockSafe seg) ∧
    parse_srt (renderSrt (write_srt_simple [rtSeg])) =
      (write_srt_simple [rtSeg]).map entryOfBlock :=
  ⟨rtSeg_blockSafe, srt_round_trip [rtSeg] rtSeg_blockSafe⟩
